import Mathlib

/-!
# SMPL discrete-event simulation kernel (`src/src/smpl.h`)

A shallow embedding of the engine (clock and pending event set), the device and
the queue of `smpl.h`, followed by theorems about their behaviour.

Modelling conventions.

* `std::set<T>` is a list that is strictly increasing for `operator<`; `begin()`
  is the head of the list, `insert` puts an element at its place in the order
  and does nothing when the set already holds an element that compares
  equivalent, `erase(it)` drops the element the iterator points to.
* The platform is a 64-bit one: `time_t` is a signed 64-bit integer, `size_t`
  and `u64` are unsigned 64-bit integers.
* Values of type `time_t` are integers (`Int`). The sum `_time + time` of
  `schedule` is computed as the build computes it, in two's complement: a sum
  above `2 ^ 63 - 1` wraps into the negative numbers (`wrapTime`). The
  differences and sums of `time_t` values in `cancel`, `release`, `enqueue` and
  `head` are exact: on the times `0 ≤ t < 2 ^ 63` of a run without a wrap in
  `schedule` they stay in the 64-bit range.
* `u64` accumulators (`timeQueueSum`, `waitTimeSum`, `waitTimeSumSquared`) are
  natural numbers reduced modulo `2 ^ 64` at every update, as unsigned
  arithmetic does; a `time_t` value that enters such an update is converted by
  `u64`. Identifiers (`eventId`, `transactId`, `priority`, `stage`) are only
  copied and compared and are natural numbers.
* `size_t` counters that grow by one per call (`count`, `transactCount`) and
  `maxLength`, which is bounded by the size of a container, are natural
  numbers: `2 ^ 64` calls are out of reach of any run.
* `assert` is active: a call whose assertion fails aborts the run. The outcome
  of such a call records the state in which the assertion was evaluated.
* The report functions compute in `double` from integer values; the integer
  quotients they take are modelled as such, the `double` arithmetic is taken
  as exact.
-/

namespace smpl

/-! ## Outcomes of calls -/

/-- Outcome of a call on a state of type `σ` that returns an `α`: a normal
return with the state after the call, an abort by a failed `assert` together
with the state in which the assertion was evaluated, or no defined behaviour. -/
inductive Outcome (σ : Type) (α : Type) where
  | ok (value : α) (next : σ)
  | abort (state : σ)
  | undefined
deriving DecidableEq, Repr

/-- State after a call that returned normally. -/
def Outcome.next? {σ α : Type} : Outcome σ α → Option σ
  | .ok _ s => some s
  | .abort _ => none
  | .undefined => none

/-- Value returned by a call that returned normally. -/
def Outcome.value? {σ α : Type} : Outcome σ α → Option α
  | .ok v _ => some v
  | .abort _ => none
  | .undefined => none

/-- The call was stopped by a failed assertion. -/
def Outcome.aborts {σ α : Type} : Outcome σ α → Bool
  | .abort _ => true
  | _ => false

/-! ## `std::set` -/

/-- `std::set<T>::insert` for the strict order `lt`: the element goes to its
place in the order; when an element equivalent to it (neither less than the
other) is already present the set is left as it is. -/
def setInsert {α : Type} (lt : α → α → Bool) (x : α) : List α → List α
  | [] => [x]
  | y :: ys =>
    if lt x y then x :: y :: ys
    else if lt y x then y :: setInsert lt x ys
    else y :: ys

/-- Representation invariant of a `std::set`: strictly increasing for `lt`. -/
def SetOrdered {α : Type} (lt : α → α → Bool) (l : List α) : Prop :=
  l.Pairwise (fun a b => lt a b = true)

/-! ## Events and the engine -/

/-- `class Event`: time `T`, event number `E`, transact `J`. -/
structure Event where
  time : Int
  eventId : Nat
  transactId : Nat
deriving DecidableEq, Repr

/-- `operator<(const Event &a, const Event &b)`. -/
def Event.lt (a b : Event) : Bool :=
  decide (a.time < b.time) || (decide (a.time = b.time) && decide (a.eventId < b.eventId))

/-- `class Engine`, the part the core operations use: the pending events and
the model time `_time`. -/
structure Engine where
  events : List Event
  _time : Int
deriving DecidableEq, Repr

/-- `Engine::Engine`: `_time(0)` and an empty event set. -/
def Engine.create : Engine :=
  { events := [], _time := 0 }

/-- `Engine::getTime`. -/
def Engine.getTime (eng : Engine) : Int :=
  eng._time

/-- Result of an addition of two `time_t` values as the build computes it:
the 64-bit two's complement of the sum, which is the sum itself from `-2 ^ 63`
to `2 ^ 63 - 1` and wraps around outside. -/
def wrapTime (x : Int) : Int :=
  (x + 2 ^ 63) % 2 ^ 64 - 2 ^ 63

/-- `Engine::schedule(eventId, time, transactId)`. The only check is
`assert(time >= 0)`; the sum `_time + time` is a sum of two `time_t`. -/
def Engine.schedule (eventId : Nat) (time : Int) (transactId : Nat) (eng : Engine) :
    Outcome Engine Unit :=
  if 0 ≤ time then
    let e : Event :=
      { eventId := eventId, time := wrapTime (eng._time + time), transactId := transactId }
    .ok () { eng with events := setInsert Event.lt e eng.events }
  else
    .abort eng

/-- `Engine::cause()`. -/
def Engine.cause (eng : Engine) : Outcome Engine (Nat × Nat) :=
  match eng.events with
  | [] => .abort eng
  | e :: rest => .ok (e.eventId, e.transactId) { events := rest, _time := e.time }

/-- The loop of `Engine::cancel`: walks the set from `begin()`, stops at the
first event with `e.transactId == transactId || e.eventId == eventId`, erases
it, and yields it with the remaining set; `none` when the loop runs to
`end()` without a match (`found` stays `false`, nothing is erased). -/
def cancelScan (eventId transactId : Nat) : List Event → Option (Event × List Event)
  | [] => none
  | e :: rest =>
    if e.transactId = transactId ∨ e.eventId = eventId then some (e, rest)
    else
      match cancelScan eventId transactId rest with
      | none => none
      | some (f, r) => some (f, e :: r)

/-- `Engine::cancel(eventId, transactId)`. -/
def Engine.cancel (eventId transactId : Nat) (eng : Engine) : Outcome Engine Int :=
  match cancelScan eventId transactId eng.events with
  | none => .abort eng
  | some (e, rest) => .ok (e.time - eng._time) { eng with events := rest }

/-- One call of the driving loop on the engine. -/
inductive Call where
  | schedule (eventId : Nat) (time : Int) (transactId : Nat)
  | cause
  | cancel (eventId transactId : Nat)
deriving DecidableEq, Repr

/-- State after a call when it returns normally, `none` when it aborts. -/
def Engine.call (eng : Engine) : Call → Option Engine
  | .schedule eventId time transactId => (eng.schedule eventId time transactId).next?
  | .cause => eng.cause.next?
  | .cancel eventId transactId => (eng.cancel eventId transactId).next?

/-- State after a sequence of calls that all return normally. -/
def Engine.run (eng : Engine) : List Call → Option Engine
  | [] => some eng
  | c :: cs =>
    match eng.call c with
    | none => none
    | some eng' => eng'.run cs

/-- Model times set by the `cause` calls of a sequence, in call order; the
sequence is followed as long as its calls return normally. -/
def Engine.causeTimes (eng : Engine) : List Call → List Int
  | [] => []
  | c :: cs =>
    match eng.call c with
    | none => []
    | some eng' =>
      match c with
      | .cause => eng'._time :: eng'.causeTimes cs
      | _ => eng'.causeTimes cs

/-- States the engine can be in: reached from a new engine by calls to
`schedule`, `cause` and `cancel` that all return normally. -/
def Engine.Reachable (eng : Engine) : Prop :=
  ∃ cs : List Call, Engine.create.run cs = some eng

/-- The call does not overflow `time_t`: for `schedule`, the sum
`_time + time` is at most `2 ^ 63 - 1`. -/
def Engine.fits (eng : Engine) : Call → Bool
  | .schedule _ time _ => decide (eng._time + time < 2 ^ 63)
  | .cause => true
  | .cancel _ _ => true

/-- State after a sequence of calls that all return normally and of which none
overflows `time_t`. -/
def Engine.runExact (eng : Engine) : List Call → Option Engine
  | [] => some eng
  | c :: cs =>
    if eng.fits c then
      match eng.call c with
      | none => none
      | some eng' => eng'.runExact cs
    else none

/-- States the engine can be in without an overflow of `time_t`: reached from
a new engine by calls to `schedule`, `cause` and `cancel` that all return
normally, where every `schedule` has `_time + time ≤ 2 ^ 63 - 1`. -/
def Engine.ReachableExact (eng : Engine) : Prop :=
  ∃ cs : List Call, Engine.create.runExact cs = some eng

/-- Pending events are kept in order and none lies before the model time. -/
def Engine.Inv (eng : Engine) : Prop :=
  SetOrdered Event.lt eng.events ∧ ∀ e ∈ eng.events, eng._time ≤ e.time

/-! ## Device -/

/-- `class Device`: name, transact `J` being served (`0` when the device is
free), time `B` of the last reservation, request counter `Z`, sum `SB` of the
busy periods. -/
structure Device where
  name : String
  currentTransactId : Nat
  lastTimeUsed : Int
  transactCount : Nat
  timeUsedSum : Int
deriving DecidableEq, Repr

/-- `Device::Device(name, engine)`. -/
def Device.create (name : String) : Device :=
  { name := name, currentTransactId := 0, lastTimeUsed := 0, transactCount := 0,
    timeUsedSum := 0 }

/-- `Device::reserve(transactId)`; `engine` is the engine the device points to. -/
def Device.reserve (engine : Engine) (transactId : Nat) (d : Device) : Outcome Device Unit :=
  if d.currentTransactId = 0 then
    .ok () { d with currentTransactId := transactId, lastTimeUsed := engine.getTime }
  else
    .abort d

/-- `Device::release()`; `engine` is the engine the device points to. -/
def Device.release (engine : Engine) (d : Device) : Outcome Device Unit :=
  if d.currentTransactId ≠ 0 then
    .ok () { d with
      timeUsedSum := d.timeUsedSum + (engine.getTime - d.lastTimeUsed)
      transactCount := d.transactCount + 1
      currentTransactId := 0 }
  else
    .abort d

/-- `Device::status()`. -/
def Device.status (d : Device) : Nat :=
  d.currentTransactId

/-! ## Queue -/

/-- Conversion of a signed 64-bit value to `u64`. -/
def u64 (x : Int) : Nat :=
  (x % 2 ^ 64).toNat

/-- `class QueueItem`: priority `I`, transact `J`, arrival time `T`, stage `S`. -/
structure QueueItem where
  priority : Nat
  transactId : Nat
  time : Int
  stage : Nat
deriving DecidableEq, Repr

/-- `operator<(const QueueItem &a, const QueueItem &b)`. -/
def QueueItem.lt (a b : QueueItem) : Bool :=
  decide (a.time < b.time) || (decide (a.time = b.time) && decide (a.priority < b.priority))

/-- `class Queue`: `Max`, `STQ`, `SW`, `SW2`, `TLast`, `Count`, the container
and the name. -/
structure Queue where
  maxLength : Nat
  timeQueueSum : Nat
  waitTimeSum : Nat
  waitTimeSumSquared : Nat
  lastTimeChanged : Int
  count : Nat
  queue : List QueueItem
  name : String
deriving DecidableEq, Repr

/-- `Queue::Queue(name, engine)`. -/
def Queue.create (name : String) : Queue :=
  { maxLength := 0, timeQueueSum := 0, waitTimeSum := 0, waitTimeSumSquared := 0,
    lastTimeChanged := 0, count := 0, queue := [], name := name }

/-- `Queue::length()`. -/
def Queue.length (q : Queue) : Nat :=
  q.queue.length

/-- `Queue::enqueue(transactId, priority, stage)`; `engine` is the engine the
queue points to. The element is inserted first, the statistics are updated
from the size of the container after the insertion. -/
def Queue.enqueue (engine : Engine) (transactId priority stage : Nat) (q : Queue) : Queue :=
  let queue := setInsert QueueItem.lt
    { time := engine.getTime, transactId := transactId, priority := priority, stage := stage }
    q.queue
  { q with
    queue := queue
    timeQueueSum :=
      (q.timeQueueSum + ((queue.length - 1) * u64 (engine.getTime - q.lastTimeChanged)) % 2 ^ 64)
        % 2 ^ 64
    maxLength := max q.maxLength queue.length
    lastTimeChanged := engine.getTime }

/-- `Queue::head(stage)`; `engine` is the engine the queue points to. The
value of a normal return is the pair of the returned transact and the stage
written to the reference parameter. No assertion guards the call:
on an empty container `*queue.begin()` has no defined behaviour. -/
def Queue.head (engine : Engine) (q : Queue) : Outcome Queue (Nat × Nat) :=
  match q.queue with
  | [] => .undefined
  | qi :: rest =>
    .ok (qi.transactId, qi.stage) { q with
      queue := rest
      timeQueueSum :=
        (q.timeQueueSum + ((rest.length + 1) * u64 (engine.getTime - q.lastTimeChanged)) % 2 ^ 64)
          % 2 ^ 64
      waitTimeSum := (q.waitTimeSum + u64 (engine.getTime - qi.time)) % 2 ^ 64
      waitTimeSumSquared :=
        (q.waitTimeSumSquared + u64 ((engine.getTime - qi.time) * (engine.getTime - qi.time)))
          % 2 ^ 64
      lastTimeChanged := engine.getTime
      count := q.count + 1 }

/-- States a queue can be in: reached from a new queue by calls to `enqueue`
and `head` that return normally, the model time never decreasing from one call
to the next (`lastTimeChanged` holds the model time of the previous call, and
`0`, the time of a new engine, before the first). -/
inductive Queue.Reachable : Queue → Prop where
  | create (name : String) : Queue.Reachable (Queue.create name)
  | enqueue (engine : Engine) (transactId priority stage : Nat) (q : Queue) :
      Queue.Reachable q → q.lastTimeChanged ≤ engine.getTime →
      Queue.Reachable (q.enqueue engine transactId priority stage)
  | head (engine : Engine) (q q' : Queue) (r : Nat × Nat) :
      Queue.Reachable q → q.lastTimeChanged ≤ engine.getTime →
      q.head engine = .ok r q' → Queue.Reachable q'

/-- Facts that hold of every reachable queue: the container is ordered, no
item arrived after the last change, the last change is not before time 0, the
container is no longer than `maxLength`, and the `u64` accumulators are below
`2 ^ 64`. -/
def Queue.Inv (q : Queue) : Prop :=
  SetOrdered QueueItem.lt q.queue ∧
  (∀ i ∈ q.queue, i.time ≤ q.lastTimeChanged) ∧
  0 ≤ q.lastTimeChanged ∧
  q.queue.length ≤ q.maxLength ∧
  q.timeQueueSum < 2 ^ 64 ∧ q.waitTimeSum < 2 ^ 64 ∧ q.waitTimeSumSquared < 2 ^ 64

/-- A queue after one `enqueue` call at model time 0, for the transact 1 with
priority 0 and stage 0. -/
def Queue.oneAtZero : Queue :=
  (Queue.create "Q").enqueue Engine.create 1 0 0

/-- A queue after four `enqueue` calls at model time 0, for the transacts 1 to
4 with the priorities 0 to 3. -/
def Queue.fourAtZero : Queue :=
  ((((Queue.create "Q").enqueue Engine.create 1 0 0).enqueue Engine.create 2 1 0).enqueue
    Engine.create 3 2 0).enqueue Engine.create 4 3 0

/-- One call on a queue. -/
inductive QueueCall where
  | enqueue (transactId priority stage : Nat)
  | head
deriving DecidableEq, Repr

/-- State of the queue after a call made with the engine in state `engine`,
when the call returns normally. -/
def Queue.call (engine : Engine) (q : Queue) : QueueCall → Option Queue
  | .enqueue transactId priority stage => some (q.enqueue engine transactId priority stage)
  | .head => (q.head engine).next?

/-- State of the queue after a sequence of calls, each given with the state of
the engine at the call: every call returns normally and the model time of a
call is not below `prev`, the model time of the call before it. -/
def Queue.run (prev : Int) (q : Queue) : List (Engine × QueueCall) → Option Queue
  | [] => some q
  | (engine, c) :: cs =>
    if prev ≤ engine.getTime then
      match q.call engine c with
      | none => none
      | some q' => Queue.run engine.getTime q' cs
    else none

/-- Sum, over the calls of a sequence, of the number of items held before the
call times the model time elapsed since the call before it (since `prev` for
the first call): the integral of the queue length over the time the sequence
spans. -/
def Queue.lengthIntegral (prev : Int) (q : Queue) : List (Engine × QueueCall) → Int
  | [] => 0
  | (engine, c) :: cs =>
    q.length * (engine.getTime - prev) +
      match q.call engine c with
      | none => 0
      | some q' => Queue.lengthIntegral engine.getTime q' cs

/-- Values returned by `n` consecutive `head` calls made with the engine in
state `engine`, as long as they return normally. -/
def Queue.heads (engine : Engine) : Nat → Queue → List (Nat × Nat)
  | 0, _ => []
  | n + 1, q =>
    match q.head engine with
    | .ok r q' => r :: Queue.heads engine n q'
    | _ => []

/-- The initialiser of `double avgWaitTime` in `Engine::reportQueues`:
`q->count ? q->waitTimeSum / q->count : 0`. Both operands of the division are
unsigned integers, so the quotient is the integer quotient; it is converted to
`double` afterwards. -/
def Queue.avgWaitTime (q : Queue) : Nat :=
  if q.count ≠ 0 then q.waitTimeSum / q.count else 0

/-- Five `enqueue` calls: four at model time 0 with the priorities 0 to 3, the
fifth at model time `2 ^ 62`. -/
def Queue.wrapCalls : List (Engine × QueueCall) :=
  [(Engine.mk [] 0, .enqueue 1 0 0), (Engine.mk [] 0, .enqueue 2 1 0),
    (Engine.mk [] 0, .enqueue 3 2 0), (Engine.mk [] 0, .enqueue 4 3 0),
    (Engine.mk [] (2 ^ 62), .enqueue 5 0 0)]

/-! ## The single-server scenario -/

/-- Value and next state of a call that returned normally. -/
def Outcome.result? {σ α : Type} : Outcome σ α → Option (α × σ)
  | .ok v s => some (v, s)
  | .abort _ => none
  | .undefined => none

/-- An engine with one device and one queue created on it. -/
structure World where
  engine : Engine
  device : Device
  queue : Queue
deriving DecidableEq, Repr

/-- Event number of the arrival of a transact in the scenario. -/
def eventArrival : Nat := 1

/-- Event number of the release of the device in the scenario. -/
def eventRelease : Nat := 2

/-- Service time of the device in the scenario. -/
def serviceTime : Int := 10

/-- Modelled from the spec: the set-up of the end-to-end scenario of section 8,
which is not among the sources (`usage.cpp` drives another model, with random
delays). A new engine with the device `M` and the queue `Q`; the arrival of
transact 1 is scheduled with delay 0 and the arrival of transact 2 with
delay 5. -/
def World.setup : Option World := do
  let (_, e1) ← (Engine.create.schedule eventArrival 0 1).result?
  let (_, e2) ← (e1.schedule eventArrival 5 2).result?
  pure { engine := e2, device := Device.create "M", queue := Queue.create "Q" }

/-- Modelled from the spec: one turn of the driving loop of the scenario, in
the shape of the loop of `usage.cpp`. `cause()` gives the next event. An
arrival reserves the device and schedules its release after the service time
when `status()` is 0, and otherwise puts the transact in the queue (priority 0
and stage 1, as `usage.cpp` does). A release event calls `release()` and, when
`length()` is above 0, takes the `head()` of the queue, reserves the device
for it and schedules its release after the service time. The turn yields the
model time set by `cause()` and the next state; it yields `none` as soon as a
call does not return normally. -/
def World.turn (w : World) : Option (Int × World) := do
  let ((event, transact), eng) ← w.engine.cause.result?
  if event = eventArrival then
    if w.device.status = 0 then
      let (_, dev) ← (w.device.reserve eng transact).result?
      let (_, eng') ← (eng.schedule eventRelease serviceTime transact).result?
      pure (eng.getTime, { engine := eng', device := dev, queue := w.queue })
    else
      pure (eng.getTime,
        { engine := eng, device := w.device, queue := w.queue.enqueue eng transact 0 1 })
  else if event = eventRelease then
    let (_, dev) ← (w.device.release eng).result?
    if w.queue.length > 0 then
      let ((next, _), q) ← (w.queue.head eng).result?
      let (_, dev') ← (dev.reserve eng next).result?
      let (_, eng') ← (eng.schedule eventRelease serviceTime next).result?
      pure (eng.getTime, { engine := eng', device := dev', queue := q })
    else
      pure (eng.getTime, { engine := eng, device := dev, queue := w.queue })
  else
    pure (eng.getTime, { engine := eng, device := w.device, queue := w.queue })

/-- The loop of the scenario run for `n` turns: the model times set by the
`cause()` calls, in order, and the state reached. -/
def World.turns : Nat → World → Option (List Int × World)
  | 0, w => some ([], w)
  | n + 1, w => do
    let (t, w1) ← w.turn
    let (ts, w2) ← World.turns n w1
    pure (t :: ts, w2)

/-! ## A device operated on an engine, and the report formulas -/

/-- One call of the driving loop that concerns a device: a call on the engine
the device was created on, or `reserve` or `release` on the device. -/
inductive DeviceCall where
  | engine (c : Call)
  | reserve (transactId : Nat)
  | release
deriving DecidableEq, Repr

/-- State of the engine and of a device created on it after a call, when the
call returns normally. `reserve` and `release` read the model time of the
engine at the moment of the call. -/
def deviceStep (s : Engine × Device) : DeviceCall → Option (Engine × Device)
  | .engine c => (s.1.call c).map (fun eng => (eng, s.2))
  | .reserve transactId => ((s.2.reserve s.1 transactId).next?).map (fun d => (s.1, d))
  | .release => ((s.2.release s.1).next?).map (fun d => (s.1, d))

/-- State of the engine and of the device after a sequence of calls that all
return normally. -/
def deviceRun (s : Engine × Device) : List DeviceCall → Option (Engine × Device)
  | [] => some s
  | c :: cs =>
    match deviceStep s c with
    | none => none
    | some s' => deviceRun s' cs

/-- State of the engine and of the device after a sequence of calls that all
return normally and of which none overflows `time_t`. -/
def deviceRunExact (s : Engine × Device) : List DeviceCall → Option (Engine × Device)
  | [] => some s
  | c :: cs =>
    if (match c with
        | .engine c' => s.1.fits c'
        | _ => true) then
      match deviceStep s c with
      | none => none
      | some s' => deviceRunExact s' cs
    else none

/-- The share of busy time that `Engine::reportDevices` prints for a device:
`_time ? toString(dev->timeUsedSum * 1.0 / _time * 100) : "-"`. The `double`
arithmetic is taken as exact; `none` stands for the dash. -/
def Device.utilization (engine : Engine) (d : Device) : Option ℚ :=
  if engine._time ≠ 0 then some ((d.timeUsedSum : ℚ) * 1 / (engine._time : ℚ) * 100) else none

/-- The argument of `sqrt` in `Engine::reportQueues`:
`q->waitTimeSumSquared/q->count - avgWaitTime*avgWaitTime`. The quotient is the
integer quotient of two unsigned integers; the product and the difference are
taken in `double`, from integer values, and are taken as exact. -/
def Queue.stdDevArg (q : Queue) : Int :=
  ((q.waitTimeSumSquared / q.count : Nat) : Int) - (q.avgWaitTime : Int) * (q.avgWaitTime : Int)

/-- States a queue can be in without any wrap of the wait sums: reached from a
new queue by calls to `enqueue` and `head` that return normally, the model
time never decreasing from one call to the next, where at every `head` the new
values of `waitTimeSum` and `waitTimeSumSquared` stay below `2 ^ 64`. -/
inductive Queue.ReachableExact : Queue → Prop where
  | create (name : String) : Queue.ReachableExact (Queue.create name)
  | enqueue (engine : Engine) (transactId priority stage : Nat) (q : Queue) :
      Queue.ReachableExact q → q.lastTimeChanged ≤ engine.getTime →
      Queue.ReachableExact (q.enqueue engine transactId priority stage)
  | head (engine : Engine) (q q' : Queue) (r : Nat × Nat) (qi : QueueItem)
      (rest : List QueueItem) :
      Queue.ReachableExact q → q.lastTimeChanged ≤ engine.getTime →
      q.queue = qi :: rest →
      (q.waitTimeSum : Int) + (engine.getTime - qi.time) < 2 ^ 64 →
      (q.waitTimeSumSquared : Int) + (engine.getTime - qi.time) ^ 2 < 2 ^ 64 →
      q.head engine = .ok r q' → Queue.ReachableExact q'

/-- Facts that hold of a device in every state reached with its engine: the
last reservation is not after the model time, the busy time is not negative
and not above the model time, and while the device is busy the busy time is
not above the time of the reservation. -/
def DeviceInv (s : Engine × Device) : Prop :=
  s.1.Inv ∧ 0 ≤ s.1._time ∧ s.2.lastTimeUsed ≤ s.1._time ∧ 0 ≤ s.2.timeUsedSum ∧
    s.2.timeUsedSum ≤ s.1._time ∧
    (s.2.currentTransactId ≠ 0 → s.2.timeUsedSum ≤ s.2.lastTimeUsed)

/-! ## Lemmas on `std::set` and the event order -/

theorem mem_setInsert {α : Type} (lt : α → α → Bool) (x z : α) (l : List α)
    (h : z ∈ setInsert lt x l) : z = x ∨ z ∈ l := by
  induction l with
  | nil => simpa [setInsert] using h
  | cons y ys ih =>
    unfold setInsert at h
    split_ifs at h with h1 h2
    · rcases List.mem_cons.mp h with h | h
      · exact Or.inl h
      · exact Or.inr h
    · rcases List.mem_cons.mp h with h | h
      · exact Or.inr (h ▸ List.mem_cons_self _ _)
      · rcases ih h with h | h
        · exact Or.inl h
        · exact Or.inr (List.mem_cons_of_mem _ h)
    · exact Or.inr h

theorem mem_setInsert_of_mem {α : Type} (lt : α → α → Bool) (x z : α) (l : List α)
    (h : z ∈ l) : z ∈ setInsert lt x l := by
  induction l with
  | nil => cases h
  | cons y ys ih =>
    unfold setInsert
    split_ifs with h1 h2
    · exact List.mem_cons_of_mem _ h
    · rcases List.mem_cons.mp h with h | h
      · exact h ▸ List.mem_cons_self _ _
      · exact List.mem_cons_of_mem _ (ih h)
    · exact h

theorem setInsert_ordered {α : Type} (lt : α → α → Bool)
    (htrans : ∀ a b c, lt a b = true → lt b c = true → lt a c = true)
    (x : α) (l : List α) (h : SetOrdered lt l) : SetOrdered lt (setInsert lt x l) := by
  unfold SetOrdered at *
  induction l with
  | nil => simp [setInsert]
  | cons y ys ih =>
    have hy := (List.pairwise_cons.mp h).1
    have hys := (List.pairwise_cons.mp h).2
    unfold setInsert
    split_ifs with h1 h2
    · refine List.pairwise_cons.mpr ⟨?_, h⟩
      intro z hz
      rcases List.mem_cons.mp hz with hz | hz
      · exact hz ▸ h1
      · exact htrans _ _ _ h1 (hy z hz)
    · refine List.pairwise_cons.mpr ⟨?_, ih hys⟩
      intro z hz
      rcases mem_setInsert lt x z ys hz with hz | hz
      · exact hz ▸ h2
      · exact hy z hz
    · exact h

theorem event_lt_iff (a b : Event) :
    Event.lt a b = true ↔ a.time < b.time ∨ (a.time = b.time ∧ a.eventId < b.eventId) := by
  simp [Event.lt]

theorem event_lt_trans (a b c : Event) (hab : Event.lt a b = true) (hbc : Event.lt b c = true) :
    Event.lt a c = true := by
  rw [event_lt_iff] at *
  omega

theorem event_lt_irrefl (a : Event) : Event.lt a a = false := by
  simp [Event.lt]

theorem event_time_le_of_lt (a b : Event) (h : Event.lt a b = true) : a.time ≤ b.time := by
  rw [event_lt_iff] at h
  omega

theorem SetOrdered.nodup_event {l : List Event} (h : SetOrdered Event.lt l) : l.Nodup := by
  unfold SetOrdered at h
  refine List.Pairwise.imp ?_ h
  intro a b hab heq
  subst heq
  simp [event_lt_irrefl] at hab

/-! ## Lemmas on the loop of `cancel` -/

theorem cancelScan_some (eventId transactId : Nat) (l : List Event) (f : Event) (r : List Event)
    (h : cancelScan eventId transactId l = some (f, r)) :
    ∃ pre post, l = pre ++ f :: post ∧ r = pre ++ post ∧
      (f.transactId = transactId ∨ f.eventId = eventId) ∧
      ∀ e ∈ pre, ¬ (e.transactId = transactId ∨ e.eventId = eventId) := by
  induction l generalizing f r with
  | nil => simp [cancelScan] at h
  | cons y ys ih =>
    unfold cancelScan at h
    by_cases hy : y.transactId = transactId ∨ y.eventId = eventId
    · rw [if_pos hy] at h
      simp only [Option.some.injEq, Prod.mk.injEq] at h
      obtain ⟨rfl, rfl⟩ := h
      exact ⟨[], ys, rfl, rfl, hy, by simp⟩
    · rw [if_neg hy] at h
      cases hc : cancelScan eventId transactId ys with
      | none => rw [hc] at h; cases h
      | some p =>
        obtain ⟨f', r'⟩ := p
        rw [hc] at h
        simp only [Option.some.injEq, Prod.mk.injEq] at h
        obtain ⟨rfl, rfl⟩ := h
        obtain ⟨pre, post, h1, h2, h3, h4⟩ := ih f' r' hc
        refine ⟨y :: pre, post, by simp [h1], by simp [h2], h3, ?_⟩
        intro e he
        rcases List.mem_cons.mp he with he | he
        · exact he ▸ hy
        · exact h4 e he

/-! ## The engine invariant -/

theorem engine_inv_create : Engine.create.Inv := by
  simp [Engine.Inv, Engine.create, SetOrdered]

theorem wrapTime_of_fits (x : Int) (hlo : -(2 ^ 63) ≤ x) (hhi : x < 2 ^ 63) : wrapTime x = x := by
  unfold wrapTime
  omega

theorem engine_schedule_ok (eng eng' : Engine) (eventId : Nat) (time : Int) (transactId : Nat)
    (h : eng.schedule eventId time transactId = .ok () eng') :
    0 ≤ time ∧ eng' = Engine.mk
      (setInsert Event.lt ⟨wrapTime (eng._time + time), eventId, transactId⟩ eng.events)
      eng._time := by
  unfold Engine.schedule at h
  split_ifs at h with ht
  simp only [Outcome.ok.injEq, true_and] at h
  exact ⟨ht, h.symm⟩

theorem engine_inv_schedule (eng eng' : Engine) (eventId : Nat) (time : Int) (transactId : Nat)
    (hinv : eng.Inv) (h0 : 0 ≤ eng._time) (hfit : eng._time + time < 2 ^ 63)
    (h : eng.schedule eventId time transactId = .ok () eng') :
    eng'.Inv ∧ eng'._time = eng._time := by
  obtain ⟨ht, rfl⟩ := engine_schedule_ok eng eng' eventId time transactId h
  refine ⟨⟨setInsert_ordered _ event_lt_trans _ _ hinv.1, ?_⟩, rfl⟩
  intro e he
  rcases mem_setInsert _ _ _ _ he with he | he
  · subst he
    simp only
    rw [wrapTime_of_fits _ (by omega) hfit]
    omega
  · exact hinv.2 e he

theorem engine_inv_cause (eng eng' : Engine) (r : Nat × Nat)
    (hinv : eng.Inv) (h : eng.cause = .ok r eng') :
    eng'.Inv ∧ eng._time ≤ eng'._time := by
  unfold Engine.cause at h
  obtain ⟨hord, htime⟩ := hinv
  cases hev : eng.events with
  | nil => rw [hev] at h; cases h
  | cons e rest =>
    rw [hev] at h hord htime
    simp only [Outcome.ok.injEq] at h
    obtain ⟨-, rfl⟩ := h
    have hp := List.pairwise_cons.mp hord
    refine ⟨⟨hp.2, ?_⟩, htime e (List.mem_cons_self _ _)⟩
    intro x hx
    exact event_time_le_of_lt _ _ (hp.1 x hx)

theorem engine_inv_cancel (eng eng' : Engine) (eventId transactId : Nat) (r : Int)
    (hinv : eng.Inv) (h : eng.cancel eventId transactId = .ok r eng') :
    eng'.Inv ∧ eng'._time = eng._time := by
  unfold Engine.cancel at h
  obtain ⟨hord, htime⟩ := hinv
  cases hc : cancelScan eventId transactId eng.events with
  | none => rw [hc] at h; cases h
  | some p =>
    obtain ⟨f, rest⟩ := p
    rw [hc] at h
    simp only [Outcome.ok.injEq] at h
    obtain ⟨-, rfl⟩ := h
    obtain ⟨pre, post, h1, h2, -, -⟩ := cancelScan_some _ _ _ _ _ hc
    have hsub : List.Sublist rest eng.events := by
      rw [h1, h2]
      exact List.Sublist.append_left (List.sublist_cons_self f post) pre
    refine ⟨⟨List.Pairwise.sublist hsub hord, ?_⟩, rfl⟩
    intro x hx
    exact htime x (hsub.subset hx)

theorem engine_ordered_call (eng eng' : Engine) (c : Call)
    (hord : SetOrdered Event.lt eng.events) (h : eng.call c = some eng') :
    SetOrdered Event.lt eng'.events := by
  cases c with
  | schedule eventId time transactId =>
    simp only [Engine.call] at h
    cases ho : eng.schedule eventId time transactId with
    | ok v s =>
      rw [ho] at h
      simp only [Outcome.next?, Option.some.injEq] at h
      subst h
      obtain ⟨-, rfl⟩ := engine_schedule_ok eng s eventId time transactId ho
      exact setInsert_ordered _ event_lt_trans _ _ hord
    | abort s => rw [ho] at h; cases h
    | undefined => rw [ho] at h; cases h
  | cause =>
    simp only [Engine.call, Engine.cause] at h
    cases hev : eng.events with
    | nil => rw [hev] at h; cases h
    | cons e rest =>
      rw [hev] at h hord
      simp only [Outcome.next?, Option.some.injEq] at h
      subst h
      exact (List.pairwise_cons.mp hord).2
  | cancel eventId transactId =>
    simp only [Engine.call, Engine.cancel] at h
    cases hc : cancelScan eventId transactId eng.events with
    | none => rw [hc] at h; cases h
    | some p =>
      obtain ⟨f, rest⟩ := p
      rw [hc] at h
      simp only [Outcome.next?, Option.some.injEq] at h
      subst h
      obtain ⟨pre, post, h1, h2, -, -⟩ := cancelScan_some _ _ _ _ _ hc
      have hsub : List.Sublist rest eng.events := by
        rw [h1, h2]
        exact List.Sublist.append_left (List.sublist_cons_self f post) pre
      exact List.Pairwise.sublist hsub hord

theorem engine_ordered_run (cs : List Call) (eng eng' : Engine)
    (hord : SetOrdered Event.lt eng.events) (h : eng.run cs = some eng') :
    SetOrdered Event.lt eng'.events := by
  induction cs generalizing eng with
  | nil =>
    simp only [Engine.run, Option.some.injEq] at h
    subst h
    exact hord
  | cons c cs ih =>
    simp only [Engine.run] at h
    cases hc : eng.call c with
    | none => rw [hc] at h; cases h
    | some s =>
      rw [hc] at h
      exact ih s (engine_ordered_call eng s c hord hc) h

/-- The pending events of every state reached from a new engine are ordered
by `operator<`, also after a wrap of the sum in `schedule`. -/
theorem engine_ordered_of_reachable (eng : Engine) (h : eng.Reachable) :
    SetOrdered Event.lt eng.events := by
  obtain ⟨cs, hcs⟩ := h
  exact engine_ordered_run cs Engine.create eng engine_inv_create.1 hcs

theorem engine_inv_call (eng eng' : Engine) (c : Call) (hinv : eng.Inv)
    (h0 : 0 ≤ eng._time) (hfit : eng.fits c = true)
    (h : eng.call c = some eng') : eng'.Inv ∧ eng._time ≤ eng'._time := by
  cases c with
  | schedule eventId time transactId =>
    simp only [Engine.call] at h
    simp only [Engine.fits, decide_eq_true_eq] at hfit
    cases ho : eng.schedule eventId time transactId with
    | ok v s =>
      rw [ho] at h
      simp only [Outcome.next?, Option.some.injEq] at h
      subst h
      have := engine_inv_schedule eng s eventId time transactId hinv h0 hfit ho
      exact ⟨this.1, le_of_eq this.2.symm⟩
    | abort s => rw [ho] at h; cases h
    | undefined => rw [ho] at h; cases h
  | cause =>
    simp only [Engine.call] at h
    cases ho : eng.cause with
    | ok v s =>
      rw [ho] at h
      simp only [Outcome.next?, Option.some.injEq] at h
      subst h
      exact engine_inv_cause eng s v hinv ho
    | abort s => rw [ho] at h; cases h
    | undefined => rw [ho] at h; cases h
  | cancel eventId transactId =>
    simp only [Engine.call] at h
    cases ho : eng.cancel eventId transactId with
    | ok v s =>
      rw [ho] at h
      simp only [Outcome.next?, Option.some.injEq] at h
      subst h
      have := engine_inv_cancel eng s eventId transactId v hinv ho
      exact ⟨this.1, le_of_eq this.2.symm⟩
    | abort s => rw [ho] at h; cases h
    | undefined => rw [ho] at h; cases h

theorem engine_inv_run (cs : List Call) (eng eng' : Engine) (hinv : eng.Inv)
    (h0 : 0 ≤ eng._time) (h : eng.runExact cs = some eng') :
    eng'.Inv ∧ eng._time ≤ eng'._time := by
  induction cs generalizing eng with
  | nil =>
    simp only [Engine.runExact, Option.some.injEq] at h
    subst h
    exact ⟨hinv, le_refl _⟩
  | cons c cs ih =>
    simp only [Engine.runExact] at h
    split_ifs at h with hfit
    cases hc : eng.call c with
    | none => rw [hc] at h; cases h
    | some s =>
      rw [hc] at h
      have h1 := engine_inv_call eng s c hinv h0 hfit hc
      have h2 := ih s h1.1 (le_trans h0 h1.2) h
      exact ⟨h2.1, le_trans h1.2 h2.2⟩

theorem engine_inv_of_reachable (eng : Engine) (h : eng.ReachableExact) :
    eng.Inv ∧ 0 ≤ eng._time := by
  obtain ⟨cs, hcs⟩ := h
  exact engine_inv_run cs Engine.create eng engine_inv_create (le_refl _) hcs

theorem engine_run_of_runExact (cs : List Call) (eng eng' : Engine)
    (h : eng.runExact cs = some eng') : eng.run cs = some eng' := by
  induction cs generalizing eng with
  | nil => simpa [Engine.runExact, Engine.run] using h
  | cons c cs ih =>
    simp only [Engine.runExact] at h
    split_ifs at h with hfit
    simp only [Engine.run]
    cases hc : eng.call c with
    | none => rw [hc] at h; cases h
    | some s =>
      rw [hc] at h
      exact ih s h

theorem engine_causeTimes_sorted (cs : List Call) (eng eng' : Engine) (hinv : eng.Inv)
    (h0 : 0 ≤ eng._time) (hrun : eng.runExact cs = some eng') :
    (eng.causeTimes cs).Pairwise (· ≤ ·) ∧ ∀ t ∈ eng.causeTimes cs, eng._time ≤ t := by
  induction cs generalizing eng with
  | nil => simp [Engine.causeTimes]
  | cons c cs ih =>
    simp only [Engine.runExact] at hrun
    split_ifs at hrun with hfit
    simp only [Engine.causeTimes]
    cases hc : eng.call c with
    | none => simp
    | some s =>
      rw [hc] at hrun
      have h1 := engine_inv_call eng s c hinv h0 hfit hc
      have h2 := ih s h1.1 (le_trans h0 h1.2) hrun
      cases c with
      | cause =>
        simp only [List.pairwise_cons, List.mem_cons, forall_eq_or_imp]
        exact ⟨⟨h2.2, h2.1⟩, h1.2, fun t ht => le_trans h1.2 (h2.2 t ht)⟩
      | schedule eventId time transactId =>
        exact ⟨h2.1, fun t ht => le_trans h1.2 (h2.2 t ht)⟩
      | cancel eventId transactId =>
        exact ⟨h2.1, fun t ht => le_trans h1.2 (h2.2 t ht)⟩

/-! ## Claims on the engine -/

/-- C1 as stated fails when the sum in `schedule` wraps. On a new engine
`schedule(1, 5, 1)`, `cause()`, `schedule(2, 2 ^ 63 - 1, 2)` return normally;
the last call passes `assert(time >= 0)` and its event gets the time
`5 + (2 ^ 63 - 1)` wrapped to `-9223372036854775804`. The `cause()` that
follows returns normally and moves the model time from 5 back to that value. -/
theorem C1_clock_wraps_backwards :
    Engine.create.run [.schedule 1 5 1, .cause, .schedule 2 (2 ^ 63 - 1) 2] =
        some (Engine.mk [⟨-9223372036854775804, 2, 2⟩] 5) ∧
      (Engine.mk [⟨-9223372036854775804, 2, 2⟩] 5).cause =
        .ok (2, 2) (Engine.mk [] (-9223372036854775804)) ∧
      (Engine.mk [] (-9223372036854775804)).getTime <
        (Engine.mk [⟨-9223372036854775804, 2, 2⟩] 5).getTime ∧
      Engine.create.causeTimes [.schedule 1 5 1, .cause, .schedule 2 (2 ^ 63 - 1) 2, .cause] =
        [5, -9223372036854775804] := by
  refine ⟨?_, ?_, ?_, ?_⟩ <;> decide

/-- C1 (monotonic clock), for runs without overflow of the clock type. In
every state reached from a new engine by calls to `schedule`, `cause` and
`cancel` that return normally and in which every `schedule` has
`_time + time ≤ 2 ^ 63 - 1`, a `cause` that returns normally leaves the model
time at or above its value before the call; and along any sequence of such
calls the model times set by the successive `cause` calls never decrease. -/
theorem C1_monotonic_clock (eng : Engine) (hreach : eng.ReachableExact)
    (r : Nat × Nat) (eng' : Engine) (hcause : eng.cause = .ok r eng') :
    eng.getTime ≤ eng'.getTime ∧
      ∀ (cs : List Call) (eng'' : Engine), Engine.create.runExact cs = some eng'' →
        (Engine.create.causeTimes cs).Pairwise (· ≤ ·) :=
  ⟨(engine_inv_cause eng eng' r (engine_inv_of_reachable eng hreach).1 hcause).2,
    fun cs eng'' hrun =>
      (engine_causeTimes_sorted cs Engine.create eng'' engine_inv_create (le_refl _) hrun).1⟩

/-- Instance of C1: after `schedule(1, 5, 1)` and `schedule(2, 3, 7)` on a new
engine, `cause` moves the model time from 0 to 3. -/
theorem C1_monotonic_clock_witness :
    (Engine.mk [⟨3, 2, 7⟩, ⟨5, 1, 1⟩] 0).getTime ≤ (Engine.mk [⟨5, 1, 1⟩] 3).getTime ∧
      ∀ (cs : List Call) (eng'' : Engine), Engine.create.runExact cs = some eng'' →
        (Engine.create.causeTimes cs).Pairwise (· ≤ ·) :=
  C1_monotonic_clock (Engine.mk [⟨3, 2, 7⟩, ⟨5, 1, 1⟩] 0)
    ⟨[.schedule 1 5 1, .schedule 2 3 7], by decide⟩ (2, 7) (Engine.mk [⟨5, 1, 1⟩] 3) (by decide)

/-- C2 (conservation of events) fails on the code. On a new engine the two
calls `schedule(1, 0, 1)` and `schedule(1, 0, 2)` both return normally; one
`cause` then returns normally and leaves the pending set empty, and two
consecutive `cause` calls do not both return normally. -/
theorem C2_two_schedules_one_cause :
    ∃ eng : Engine,
      Engine.create.run [.schedule 1 0 1, .schedule 1 0 2] = some eng ∧
      eng.run [.cause] = some { events := [], _time := 0 } ∧
      eng.run [.cause, .cause] = none := by
  refine ⟨{ events := [⟨0, 1, 1⟩], _time := 0 }, ?_, ?_, ?_⟩ <;> decide

/-- C3 (`cause`). On any engine whose pending set is a set ordered by
`operator<`: `cause` aborts exactly when the pending set is empty; otherwise
the set holds an event `e` that is below every other pending event in the
lexicographic order on `(time, eventId)`, and `cause` returns
`(e.eventId, e.transactId)`, sets the model time to `e.time` and leaves
exactly the other pending events in the set. -/
theorem C3_cause_removes_minimum (eng : Engine) (hord : SetOrdered Event.lt eng.events) :
    (eng.cause.aborts = true ↔ eng.events = []) ∧
    (eng.events ≠ [] →
      ∃ e ∈ eng.events,
        (∀ x ∈ eng.events, x ≠ e →
          e.time < x.time ∨ (e.time = x.time ∧ e.eventId < x.eventId)) ∧
        eng.cause = .ok (e.eventId, e.transactId)
          { events := eng.events.erase e, _time := e.time } ∧
        (∀ x, x ∈ eng.events.erase e ↔ x ∈ eng.events ∧ x ≠ e)) := by
  have hnd := hord.nodup_event
  unfold Engine.cause
  cases hev : eng.events with
  | nil => simp [Outcome.aborts]
  | cons e rest =>
    rw [hev] at hord hnd
    refine ⟨by simp [Outcome.aborts], fun _ => ⟨e, List.mem_cons_self _ _, ?_, ?_, ?_⟩⟩
    · intro x hx hne
      rcases List.mem_cons.mp hx with hx | hx
      · exact absurd hx hne
      · exact (event_lt_iff e x).mp ((List.pairwise_cons.mp hord).1 x hx)
    · simp
    · intro x
      rw [hnd.mem_erase_iff]
      exact ⟨fun h => ⟨h.2, h.1⟩, fun h => ⟨h.2, h.1⟩⟩

/-- Instance of C3 on the pending set `{(3, 2, 7), (5, 1, 1)}`. -/
theorem C3_cause_removes_minimum_witness :
    ∃ e ∈ [(⟨3, 2, 7⟩ : Event), ⟨5, 1, 1⟩],
      (∀ x ∈ [(⟨3, 2, 7⟩ : Event), ⟨5, 1, 1⟩], x ≠ e →
        e.time < x.time ∨ (e.time = x.time ∧ e.eventId < x.eventId)) ∧
      (Engine.mk [⟨3, 2, 7⟩, ⟨5, 1, 1⟩] 0).cause = .ok (e.eventId, e.transactId)
        { events := [(⟨3, 2, 7⟩ : Event), ⟨5, 1, 1⟩].erase e, _time := e.time } ∧
      (∀ x, x ∈ [(⟨3, 2, 7⟩ : Event), ⟨5, 1, 1⟩].erase e ↔
        x ∈ [(⟨3, 2, 7⟩ : Event), ⟨5, 1, 1⟩] ∧ x ≠ e) :=
  (C3_cause_removes_minimum (Engine.mk [⟨3, 2, 7⟩, ⟨5, 1, 1⟩] 0)
    (by simp [SetOrdered, Event.lt])).2 (by simp)

/-- C4 (`schedule`) fails on the code. On a new engine `schedule(1, 0, 1)`
followed by `schedule(1, 0, 2)`: both calls return normally, and after the
second the pending set is still `{(0, 1, 1)}`; it does not hold the event
`(0, 1, 2)` that the second call was to insert. -/
theorem C4_schedule_drops_event :
    ∃ eng eng' : Engine,
      Engine.create.schedule 1 0 1 = .ok () eng ∧
      eng.schedule 1 0 2 = .ok () eng' ∧
      eng'.events = [⟨0, 1, 1⟩] ∧
      (⟨eng.getTime + 0, 1, 2⟩ : Event) ∉ eng'.events := by
  refine ⟨{ events := [⟨0, 1, 1⟩], _time := 0 }, { events := [⟨0, 1, 1⟩], _time := 0 },
    ?_, ?_, ?_, ?_⟩ <;> decide

/-- C6 as stated fails for the transact number 0: on a new device
`reserve(0)` returns normally and leaves the device free, so the `reserve(5)`
that follows returns normally too. -/
theorem C6_reserve_zero_then_reserve :
    ∃ d d' : Device,
      (Device.create "M").reserve Engine.create 0 = .ok () d ∧
      d.reserve Engine.create 5 = .ok () d' := by
  exact ⟨Device.mk "M" 0 0 0 0, Device.mk "M" 5 0 0 0, rfl, rfl⟩

/-- C6 (device exclusivity), with the transact number `a` of the first call
different from 0. For every device and every `b`: when `reserve(a)` returns
normally, the `reserve(b)` that follows on the device, at any model time,
aborts and leaves the device as it was; and `release()` on a new device
aborts. -/
theorem C6_device_exclusivity (d d' : Device) (eng eng' : Engine) (a b : Nat) (ha : a ≠ 0)
    (hres : d.reserve eng a = .ok () d') :
    d'.reserve eng' b = .abort d' ∧
      ∀ (name : String) (eng'' : Engine),
        (Device.create name).release eng'' = .abort (Device.create name) := by
  unfold Device.reserve at hres
  split_ifs at hres with hfree
  simp only [Outcome.ok.injEq, true_and] at hres
  subst hres
  refine ⟨by simp [Device.reserve, ha], ?_⟩
  intro name eng''
  simp [Device.release, Device.create]

/-- Instance of C6: `reserve(1)` then `reserve(2)` on a new device. -/
theorem C6_device_exclusivity_witness :
    (Device.mk "M" 1 0 0 0).reserve Engine.create 2 = .abort (Device.mk "M" 1 0 0 0) ∧
      ∀ (name : String) (eng'' : Engine),
        (Device.create name).release eng'' = .abort (Device.create name) :=
  C6_device_exclusivity (Device.create "M") (Device.mk "M" 1 0 0 0) Engine.create Engine.create
    1 2 (by decide) rfl

theorem setInsert_length {α : Type} (lt : α → α → Bool) (x : α) (l : List α) :
    (setInsert lt x l).length = l.length + 1 ∨
      (setInsert lt x l = l ∧ ∃ y ∈ l, lt x y = false ∧ lt y x = false) := by
  induction l with
  | nil => simp [setInsert]
  | cons y ys ih =>
    unfold setInsert
    split_ifs with h1 h2
    · simp
    · rcases ih with ih | ⟨ih, z, hz, hz1, hz2⟩
      · left; simp [ih]
      · right
        exact ⟨by rw [ih], z, List.mem_cons_of_mem _ hz, hz1, hz2⟩
    · right
      exact ⟨rfl, y, List.mem_cons_self _ _, by simpa using h1, by simpa using h2⟩

theorem queueItem_lt_iff (a b : QueueItem) :
    QueueItem.lt a b = true ↔ a.time < b.time ∨ (a.time = b.time ∧ a.priority < b.priority) := by
  simp [QueueItem.lt]

theorem queueItem_lt_trans (a b c : QueueItem) (hab : QueueItem.lt a b = true)
    (hbc : QueueItem.lt b c = true) : QueueItem.lt a c = true := by
  rw [queueItem_lt_iff] at *
  omega

theorem queueItem_time_eq_of_equiv (a b : QueueItem) (h1 : QueueItem.lt a b = false)
    (h2 : QueueItem.lt b a = false) : a.time = b.time := by
  have h1' : ¬ (a.time < b.time ∨ (a.time = b.time ∧ a.priority < b.priority)) := by
    rw [← queueItem_lt_iff, h1]; simp
  have h2' : ¬ (b.time < a.time ∨ (b.time = a.time ∧ b.priority < a.priority)) := by
    rw [← queueItem_lt_iff, h2]; simp
  omega

theorem u64_of_nonneg (x : Int) (h : 0 ≤ x) : u64 x = x.toNat % 2 ^ 64 := by
  unfold u64
  omega

theorem queue_inv_create (name : String) : (Queue.create name).Inv := by
  simp [Queue.Inv, Queue.create, SetOrdered]

theorem queue_inv_enqueue (q : Queue) (engine : Engine) (transactId priority stage : Nat)
    (hinv : q.Inv) (hclock : q.lastTimeChanged ≤ engine.getTime) :
    (q.enqueue engine transactId priority stage).Inv := by
  obtain ⟨hord, hitems, hlast, hmax, h1, h2, h3⟩ := hinv
  refine ⟨setInsert_ordered _ queueItem_lt_trans _ _ hord, ?_, ?_, ?_, ?_, h2, h3⟩
  · intro i hi
    rcases mem_setInsert _ _ _ _ hi with hi | hi
    · subst hi
      exact le_refl _
    · exact le_trans (hitems i hi) hclock
  · exact le_trans hlast hclock
  · exact le_max_right _ _
  · exact Nat.mod_lt _ (by norm_num)

theorem queue_inv_head (q q' : Queue) (engine : Engine) (r : Nat × Nat)
    (hinv : q.Inv) (hclock : q.lastTimeChanged ≤ engine.getTime)
    (h : q.head engine = .ok r q') : q'.Inv := by
  obtain ⟨hord, hitems, hlast, hmax, h1, h2, h3⟩ := hinv
  unfold Queue.head at h
  cases hq : q.queue with
  | nil => rw [hq] at h; cases h
  | cons qi rest =>
    rw [hq] at h hord hitems hmax
    simp only [Outcome.ok.injEq] at h
    obtain ⟨-, rfl⟩ := h
    refine ⟨(List.pairwise_cons.mp hord).2, ?_, le_trans hlast hclock, ?_,
      Nat.mod_lt _ (by norm_num), Nat.mod_lt _ (by norm_num), Nat.mod_lt _ (by norm_num)⟩
    · intro i hi
      exact le_trans (hitems i (List.mem_cons_of_mem _ hi)) hclock
    · simp only [List.length_cons] at hmax
      exact Nat.le_of_succ_le hmax

theorem queue_inv_of_reachable (q : Queue) (h : q.Reachable) : q.Inv := by
  induction h with
  | create name => exact queue_inv_create name
  | enqueue engine transactId priority stage q _ hclock ih =>
    exact queue_inv_enqueue q engine transactId priority stage ih hclock
  | head engine q q' r _ hclock hhead ih =>
    exact queue_inv_head q q' engine r ih hclock hhead

theorem queue_enqueue_timeQueueSum (q : Queue) (engine : Engine)
    (transactId priority stage : Nat) (hinv : q.Inv)
    (hclock : q.lastTimeChanged ≤ engine.getTime) :
    (q.enqueue engine transactId priority stage).timeQueueSum =
      (q.timeQueueSum + q.queue.length * (engine.getTime - q.lastTimeChanged).toNat) % 2 ^ 64 := by
  obtain ⟨-, hitems, -, -, h1, -, -⟩ := hinv
  have hd : 0 ≤ engine.getTime - q.lastTimeChanged := by omega
  simp only [Queue.enqueue]
  rw [u64_of_nonneg _ hd]
  rcases setInsert_length QueueItem.lt
      { time := engine.getTime, transactId := transactId, priority := priority, stage := stage }
      q.queue with hlen | ⟨hsame, y, hy, hxy, hyx⟩
  · rw [hlen, Nat.add_sub_cancel, Nat.add_mod_mod, Nat.add_mod, Nat.mul_mod_mod, ← Nat.add_mod]
  · have htime := queueItem_time_eq_of_equiv _ _ hxy hyx
    have hle := hitems y hy
    simp only at htime
    have hzero : (engine.getTime - q.lastTimeChanged).toNat = 0 := by omega
    rw [hsame, hzero]
    simp

/-! ## Claims on the queue -/

/-- C8 as stated fails when the 64-bit sum wraps. The queue `fourAtZero` is
reachable and holds four items with `timeQueueSum = 0` and
`lastTimeChanged = 0`; an `enqueue` at model time `2 ^ 62` is to add
`4 * 2 ^ 62 = 2 ^ 64`, and leaves `timeQueueSum` at 0. -/
theorem C8_enqueue_sum_wraps :
    Queue.fourAtZero.Reachable ∧
      Queue.fourAtZero.lastTimeChanged ≤ (Engine.mk [] (2 ^ 62)).getTime ∧
      Queue.fourAtZero.timeQueueSum = 0 ∧
      (Queue.fourAtZero.length : Int) *
        ((Engine.mk [] (2 ^ 62)).getTime - Queue.fourAtZero.lastTimeChanged) = 2 ^ 64 ∧
      (Queue.fourAtZero.enqueue (Engine.mk [] (2 ^ 62)) 5 0 0).timeQueueSum = 0 := by
  refine ⟨?_, by decide, by decide, by decide, by decide⟩
  exact .enqueue _ _ _ _ _ (.enqueue _ _ _ _ _ (.enqueue _ _ _ _ _ (.enqueue _ _ _ _ _
    (.create "Q") (by decide)) (by decide)) (by decide)) (by decide)

/-- C8 (`enqueue`), with the 64-bit sum made explicit. In every queue state
reached from a new queue by `enqueue` and `head` calls under a non-decreasing
model time, an `enqueue` at model time `now` adds
`(number of items held before the call) * (now - lastTimeChanged)` to
`timeQueueSum` modulo `2 ^ 64`, which is that amount exactly when the sum stays
below `2 ^ 64`; it sets `maxLength` to the maximum of its old value and the
number of items held after the call, and `lastTimeChanged` to `now`. -/
theorem C8_enqueue_statistics (q : Queue) (hreach : q.Reachable) (engine : Engine)
    (hclock : q.lastTimeChanged ≤ engine.getTime) (transactId priority stage : Nat) :
    ((q.enqueue engine transactId priority stage).timeQueueSum : Int) =
        (q.timeQueueSum + q.length * (engine.getTime - q.lastTimeChanged)) % 2 ^ 64 ∧
      ((q.timeQueueSum : Int) + q.length * (engine.getTime - q.lastTimeChanged) < 2 ^ 64 →
        ((q.enqueue engine transactId priority stage).timeQueueSum : Int) =
          q.timeQueueSum + q.length * (engine.getTime - q.lastTimeChanged)) ∧
      (q.enqueue engine transactId priority stage).maxLength =
        max q.maxLength (q.enqueue engine transactId priority stage).length ∧
      (q.enqueue engine transactId priority stage).lastTimeChanged = engine.getTime := by
  have hinv := queue_inv_of_reachable q hreach
  have hd : 0 ≤ engine.getTime - q.lastTimeChanged := by omega
  have hsum : ((q.enqueue engine transactId priority stage).timeQueueSum : Int) =
      (q.timeQueueSum + q.length * (engine.getTime - q.lastTimeChanged)) % 2 ^ 64 := by
    rw [queue_enqueue_timeQueueSum q engine transactId priority stage hinv hclock]
    push_cast
    rw [Int.toNat_of_nonneg hd]
    rfl
  refine ⟨hsum, ?_, rfl, rfl⟩
  intro hlt
  rw [hsum]
  apply Int.emod_eq_of_lt _ hlt
  have : (0 : Int) ≤ q.length * (engine.getTime - q.lastTimeChanged) :=
    mul_nonneg (Int.ofNat_nonneg _) hd
  omega

/-- Instance of C8: the queue holds one item since model time 0 and `enqueue`
is called at model time 5. -/
theorem C8_enqueue_statistics_witness :
    ((Queue.oneAtZero.enqueue (Engine.mk [] 5) 2 0 0).timeQueueSum : Int) =
        (Queue.oneAtZero.timeQueueSum +
          Queue.oneAtZero.length * ((Engine.mk [] 5).getTime - Queue.oneAtZero.lastTimeChanged))
          % 2 ^ 64 ∧
      ((Queue.oneAtZero.timeQueueSum : Int) +
          Queue.oneAtZero.length * ((Engine.mk [] 5).getTime - Queue.oneAtZero.lastTimeChanged)
          < 2 ^ 64 →
        ((Queue.oneAtZero.enqueue (Engine.mk [] 5) 2 0 0).timeQueueSum : Int) =
          Queue.oneAtZero.timeQueueSum +
            Queue.oneAtZero.length *
              ((Engine.mk [] 5).getTime - Queue.oneAtZero.lastTimeChanged)) ∧
      (Queue.oneAtZero.enqueue (Engine.mk [] 5) 2 0 0).maxLength =
        max Queue.oneAtZero.maxLength (Queue.oneAtZero.enqueue (Engine.mk [] 5) 2 0 0).length ∧
      (Queue.oneAtZero.enqueue (Engine.mk [] 5) 2 0 0).lastTimeChanged =
        (Engine.mk [] 5).getTime :=
  C8_enqueue_statistics Queue.oneAtZero
    (.enqueue Engine.create 1 0 0 (Queue.create "Q") (.create "Q") (by decide))
    (Engine.mk [] 5) (by decide) 2 0 0

/-- C9 fails on the code. On a new queue at model time 0, `enqueue(7, 0, 0)`
called twice: after the first call `length()` is 1, after the second it is
still 1; one `head` then returns the transact 7 and empties the container, so
a second `head` has no item to return. -/
theorem C9_second_enqueue_dropped :
    ((Queue.create "Q").enqueue Engine.create 7 0 0).length = (Queue.create "Q").length + 1 ∧
      (((Queue.create "Q").enqueue Engine.create 7 0 0).enqueue Engine.create 7 0 0).length =
        (Queue.create "Q").length + 1 ∧
      ∃ q' : Queue,
        (((Queue.create "Q").enqueue Engine.create 7 0 0).enqueue Engine.create 7 0 0).head
          Engine.create = .ok (7, 0) q' ∧
        q'.length = 0 ∧
        q'.head Engine.create = .undefined := by
  refine ⟨by decide, by decide, ?_⟩
  exact ⟨Queue.mk 1 0 0 0 0 1 [] "Q", by decide, by decide, by decide⟩

/-- C11 fails on the code. `head` has no assertion: on a new queue, which holds
no item, the call is not stopped by a precondition check; it dereferences
`queue.begin()` of an empty container, which has no defined behaviour. -/
theorem C11_head_on_empty_undefined :
    (Queue.create "Q").length = 0 ∧
      (Queue.create "Q").head Engine.create = .undefined ∧
      ((Queue.create "Q").head Engine.create).aborts = false := by
  refine ⟨?_, ?_, ?_⟩ <;> decide

/-- C12 fails on the code. A new queue receives `enqueue(9, 0, 0)` and then
item A by `enqueue(1, 0, 1)`, both at model time 0, and item B by
`enqueue(2, 0, 2)` at model time 5. The `head` calls that follow return
`(9, 0)` and then B's `(2, 2)`; a third call finds the container empty. A's
`(1, 1)` is never returned. -/
theorem C12_earlier_item_never_returned :
    ((((Queue.create "Q").enqueue (Engine.mk [] 0) 9 0 0).enqueue (Engine.mk [] 0) 1 0 1).enqueue
        (Engine.mk [] 5) 2 0 2).length = 2 ∧
      Queue.heads (Engine.mk [] 5) 2
        ((((Queue.create "Q").enqueue (Engine.mk [] 0) 9 0 0).enqueue (Engine.mk [] 0) 1 0 1).enqueue
          (Engine.mk [] 5) 2 0 2) = [(9, 0), (2, 2)] ∧
      Queue.heads (Engine.mk [] 5) 3
        ((((Queue.create "Q").enqueue (Engine.mk [] 0) 9 0 0).enqueue (Engine.mk [] 0) 1 0 1).enqueue
          (Engine.mk [] 5) 2 0 2) = [(9, 0), (2, 2)] := by
  refine ⟨?_, ?_, ?_⟩ <;> decide

/-- C13 fails on the code. A new queue receives, all at model time 0,
`enqueue(9, 0, 0)`, then the item of priority 0 by `enqueue(1, 0, 1)` and the
item of priority 1 by `enqueue(2, 1, 2)`. The `head` calls that follow return
`(9, 0)` and then `(2, 2)`, the item of priority 1; a third call finds the
container empty. The item `(1, 1)` of priority 0 is never returned. The same
happens when the two calls are made in the other order. -/
theorem C13_lower_priority_item_never_returned :
    Queue.heads (Engine.mk [] 0) 3
        ((((Queue.create "Q").enqueue (Engine.mk [] 0) 9 0 0).enqueue (Engine.mk [] 0) 1 0 1).enqueue
          (Engine.mk [] 0) 2 1 2) = [(9, 0), (2, 2)] ∧
      Queue.heads (Engine.mk [] 0) 3
        ((((Queue.create "Q").enqueue (Engine.mk [] 0) 9 0 0).enqueue (Engine.mk [] 0) 2 1 2).enqueue
          (Engine.mk [] 0) 1 0 1) = [(9, 0), (2, 2)] := by
  refine ⟨?_, ?_⟩ <;> decide

/-- C14 (wait accounting). When `head` is executed at model time `t'` on a
queue whose first item `qi` arrived at `qi.time ≤ t'`, and neither sum leaves
the 64-bit range, the call returns normally with `qi`, `waitTimeSum` grows by
`t' - qi.time` and `waitTimeSumSquared` by the square of it. An item put by
`enqueue` carries the model time of that call as its `time`. -/
theorem C14_wait_accounting (q : Queue) (engine : Engine) (qi : QueueItem)
    (rest : List QueueItem) (hq : q.queue = qi :: rest) (hle : qi.time ≤ engine.getTime)
    (hsum : (q.waitTimeSum : Int) + (engine.getTime - qi.time) < 2 ^ 64)
    (hsq : (q.waitTimeSumSquared : Int) + (engine.getTime - qi.time) ^ 2 < 2 ^ 64) :
    (∀ (eng : Engine) (transactId priority stage : Nat) (q0 : Queue),
        ∀ i ∈ (q0.enqueue eng transactId priority stage).queue,
          i ∈ q0.queue ∨ i = ⟨priority, transactId, eng.getTime, stage⟩) ∧
      ∃ q' : Queue,
        q.head engine = .ok (qi.transactId, qi.stage) q' ∧
        q'.queue = rest ∧
        (q'.waitTimeSum : Int) = q.waitTimeSum + (engine.getTime - qi.time) ∧
        (q'.waitTimeSumSquared : Int) =
          q.waitTimeSumSquared + (engine.getTime - qi.time) ^ 2 := by
  refine ⟨?_, ?_⟩
  · intro eng transactId priority stage q0 i hi
    rcases mem_setInsert _ _ _ _ hi with h | h
    · exact Or.inr h
    · exact Or.inl h
  · have hd : 0 ≤ engine.getTime - qi.time := by omega
    obtain ⟨d, hdn⟩ := Int.eq_ofNat_of_zero_le hd
    have hdd : 0 ≤ (d : Int) * d := mul_nonneg (Int.ofNat_nonneg _) (Int.ofNat_nonneg _)
    unfold Queue.head
    rw [hq]
    refine ⟨_, rfl, rfl, ?_, ?_⟩
    · simp only [u64]
      rw [hdn] at hsum ⊢
      omega
    · simp only [u64]
      rw [hdn] at hsq ⊢
      rw [pow_two] at hsq ⊢
      generalize (d : Int) * d = dd at hsq hdd ⊢
      omega

/-- Instance of C14: the item enqueued at model time 0 is removed by `head` at
model time 5. -/
theorem C14_wait_accounting_witness :
    (∀ (eng : Engine) (transactId priority stage : Nat) (q0 : Queue),
        ∀ i ∈ (q0.enqueue eng transactId priority stage).queue,
          i ∈ q0.queue ∨ i = ⟨priority, transactId, eng.getTime, stage⟩) ∧
      ∃ q' : Queue,
        Queue.oneAtZero.head (Engine.mk [] 5) = .ok ((⟨0, 1, 0, 0⟩ : QueueItem).transactId,
          (⟨0, 1, 0, 0⟩ : QueueItem).stage) q' ∧
        q'.queue = [] ∧
        (q'.waitTimeSum : Int) =
          Queue.oneAtZero.waitTimeSum + ((Engine.mk [] 5).getTime - (⟨0, 1, 0, 0⟩ : QueueItem).time) ∧
        (q'.waitTimeSumSquared : Int) =
          Queue.oneAtZero.waitTimeSumSquared +
            ((Engine.mk [] 5).getTime - (⟨0, 1, 0, 0⟩ : QueueItem).time) ^ 2 :=
  C14_wait_accounting Queue.oneAtZero (Engine.mk [] 5) ⟨0, 1, 0, 0⟩ [] (by decide) (by decide)
    (by decide) (by decide)

/-! ## Further lemmas on the queue statistics and on `insert` -/

theorem queue_head_timeQueueSum (q q' : Queue) (engine : Engine) (r : Nat × Nat)
    (hclock : q.lastTimeChanged ≤ engine.getTime) (h : q.head engine = .ok r q') :
    q'.timeQueueSum =
      (q.timeQueueSum + q.queue.length * (engine.getTime - q.lastTimeChanged).toNat) % 2 ^ 64 := by
  have hd : 0 ≤ engine.getTime - q.lastTimeChanged := by omega
  unfold Queue.head at h
  cases hq : q.queue with
  | nil => rw [hq] at h; cases h
  | cons qi rest =>
    rw [hq] at h
    simp only [Outcome.ok.injEq] at h
    obtain ⟨-, rfl⟩ := h
    simp only [List.length_cons]
    rw [u64_of_nonneg _ hd, Nat.add_mod_mod, Nat.add_mod, Nat.mul_mod_mod, ← Nat.add_mod]

theorem queue_head_waits (q q' : Queue) (engine : Engine) (r : Nat × Nat) (qi : QueueItem)
    (rest : List QueueItem) (hq : q.queue = qi :: rest) (h : q.head engine = .ok r q') :
    q'.waitTimeSum = (q.waitTimeSum + u64 (engine.getTime - qi.time)) % 2 ^ 64 ∧
      q'.waitTimeSumSquared =
        (q.waitTimeSumSquared + u64 ((engine.getTime - qi.time) * (engine.getTime - qi.time)))
          % 2 ^ 64 ∧
      q'.count = q.count + 1 ∧ q'.maxLength = q.maxLength ∧ q'.queue = rest ∧
      q'.lastTimeChanged = engine.getTime ∧ r = (qi.transactId, qi.stage) := by
  unfold Queue.head at h
  rw [hq] at h
  simp only [Outcome.ok.injEq] at h
  obtain ⟨rfl, rfl⟩ := h
  exact ⟨rfl, rfl, rfl, rfl, rfl, rfl, rfl⟩

/-- C17 (statistics counters never decrease). In every queue state reached
from a new queue by `enqueue` and `head` calls under a non-decreasing model
time, a call made at a model time not below the last one, in which no sum
leaves the 64-bit range, leaves `maxLength`, `timeQueueSum`, `waitTimeSum`,
`waitTimeSumSquared` and `count` at or above their values before the call:
this holds of every `enqueue` and of every `head` that returns normally. -/
theorem C17_counters_never_decrease (q : Queue) (hreach : q.Reachable) (engine : Engine)
    (hclock : q.lastTimeChanged ≤ engine.getTime)
    (htq : (q.timeQueueSum : Int) + q.length * (engine.getTime - q.lastTimeChanged) < 2 ^ 64) :
    (∀ transactId priority stage : Nat,
        q.maxLength ≤ (q.enqueue engine transactId priority stage).maxLength ∧
        q.timeQueueSum ≤ (q.enqueue engine transactId priority stage).timeQueueSum ∧
        q.waitTimeSum ≤ (q.enqueue engine transactId priority stage).waitTimeSum ∧
        q.waitTimeSumSquared ≤ (q.enqueue engine transactId priority stage).waitTimeSumSquared ∧
        q.count ≤ (q.enqueue engine transactId priority stage).count) ∧
      (∀ (qi : QueueItem) (rest : List QueueItem) (r : Nat × Nat) (q' : Queue),
        q.queue = qi :: rest → q.head engine = .ok r q' →
        (q.waitTimeSum : Int) + (engine.getTime - qi.time) < 2 ^ 64 →
        (q.waitTimeSumSquared : Int) + (engine.getTime - qi.time) ^ 2 < 2 ^ 64 →
        q.maxLength ≤ q'.maxLength ∧
        q.timeQueueSum ≤ q'.timeQueueSum ∧
        q.waitTimeSum ≤ q'.waitTimeSum ∧
        q.waitTimeSumSquared ≤ q'.waitTimeSumSquared ∧
        q.count ≤ q'.count) := by
  have hinv := queue_inv_of_reachable q hreach
  have hd : 0 ≤ engine.getTime - q.lastTimeChanged := by omega
  have hnat : q.timeQueueSum + q.queue.length * (engine.getTime - q.lastTimeChanged).toNat
      < 2 ^ 64 := by
    have h1 : ((q.timeQueueSum + q.queue.length *
        (engine.getTime - q.lastTimeChanged).toNat : Nat) : Int) < 2 ^ 64 := by
      push_cast
      rw [Int.toNat_of_nonneg hd]
      exact htq
    exact_mod_cast h1
  constructor
  · intro transactId priority stage
    refine ⟨le_max_left _ _, ?_, le_refl _, le_refl _, le_refl _⟩
    rw [queue_enqueue_timeQueueSum q engine transactId priority stage hinv hclock,
      Nat.mod_eq_of_lt hnat]
    exact Nat.le_add_right _ _
  · intro qi rest r q' hq hhead hsum hsq
    have hqi : qi.time ≤ engine.getTime :=
      le_trans (hinv.2.1 qi (by rw [hq]; exact List.mem_cons_self _ _)) hclock
    have hdw : 0 ≤ engine.getTime - qi.time := by omega
    obtain ⟨d, hdn⟩ := Int.eq_ofNat_of_zero_le hdw
    have hdd : 0 ≤ (d : Int) * d := mul_nonneg (Int.ofNat_nonneg _) (Int.ofNat_nonneg _)
    obtain ⟨hw, hw2, hc, hm, -, -, -⟩ := queue_head_waits q q' engine r qi rest hq hhead
    refine ⟨le_of_eq hm.symm, ?_, ?_, ?_, by omega⟩
    · rw [queue_head_timeQueueSum q q' engine r hclock hhead, Nat.mod_eq_of_lt hnat]
      exact Nat.le_add_right _ _
    · rw [hw]
      simp only [u64]
      rw [hdn] at hsum ⊢
      omega
    · rw [hw2]
      simp only [u64]
      rw [hdn] at hsq ⊢
      rw [pow_two] at hsq
      generalize (d : Int) * d = dd at hsq hdd ⊢
      omega

/-- Instance of C17: `enqueue` at model time 5 on the queue that holds one
item since model time 0. -/
theorem C17_counters_never_decrease_witness :
    Queue.oneAtZero.maxLength ≤ (Queue.oneAtZero.enqueue (Engine.mk [] 5) 2 0 0).maxLength ∧
      Queue.oneAtZero.timeQueueSum ≤
        (Queue.oneAtZero.enqueue (Engine.mk [] 5) 2 0 0).timeQueueSum ∧
      Queue.oneAtZero.waitTimeSum ≤ (Queue.oneAtZero.enqueue (Engine.mk [] 5) 2 0 0).waitTimeSum ∧
      Queue.oneAtZero.waitTimeSumSquared ≤
        (Queue.oneAtZero.enqueue (Engine.mk [] 5) 2 0 0).waitTimeSumSquared ∧
      Queue.oneAtZero.count ≤ (Queue.oneAtZero.enqueue (Engine.mk [] 5) 2 0 0).count :=
  (C17_counters_never_decrease Queue.oneAtZero
    (.enqueue Engine.create 1 0 0 (Queue.create "Q") (.create "Q") (by decide))
    (Engine.mk [] 5) (by decide) (by decide)).1 2 0 0

/-- C19 as stated fails when the sum in `schedule` wraps. The state reached
from a new engine by `schedule(1, 5, 1)`, `cause()` and
`schedule(2, 2 ^ 63 - 1, 2)`, all returning normally, has the model time 5 and
a pending event at the time `-9223372036854775804`, which lies before it. -/
theorem C19_wrapped_event_before_clock :
    (Engine.mk [⟨-9223372036854775804, 2, 2⟩] 5).Reachable ∧
      ∃ e ∈ (Engine.mk [⟨-9223372036854775804, 2, 2⟩] 5).events,
        e.time < (Engine.mk [⟨-9223372036854775804, 2, 2⟩] 5).getTime :=
  ⟨⟨[.schedule 1 5 1, .cause, .schedule 2 (2 ^ 63 - 1) 2], by decide⟩,
    ⟨-9223372036854775804, 2, 2⟩, by decide, by decide⟩

/-- C19 (pending events are not in the past), for runs without overflow of
the clock type. In every state reached from a new engine by calls to
`schedule`, `cause` and `cancel` that return normally and in which every
`schedule` has `_time + time ≤ 2 ^ 63 - 1`, every pending event has a time at
or above the model time, and every `cancel` that returns normally returns a
value that is not negative. -/
theorem C19_pending_not_before_clock (eng : Engine) (hreach : eng.ReachableExact) :
    (∀ e ∈ eng.events, eng.getTime ≤ e.time) ∧
      ∀ (eventId transactId : Nat) (r : Int) (eng' : Engine),
        eng.cancel eventId transactId = .ok r eng' → 0 ≤ r := by
  have hinv := (engine_inv_of_reachable eng hreach).1
  refine ⟨hinv.2, ?_⟩
  intro eventId transactId r eng' h
  unfold Engine.cancel at h
  cases hc : cancelScan eventId transactId eng.events with
  | none => rw [hc] at h; cases h
  | some p =>
    obtain ⟨f, rest⟩ := p
    rw [hc] at h
    simp only [Outcome.ok.injEq] at h
    obtain ⟨rfl, -⟩ := h
    obtain ⟨pre, post, h1, -, -, -⟩ := cancelScan_some _ _ _ _ _ hc
    have hf : f ∈ eng.events := by rw [h1]; simp
    have := hinv.2 f hf
    omega

/-- Instance of C19: the engine after `schedule(1, 5, 1)` and
`schedule(2, 3, 7)`. -/
theorem C19_pending_not_before_clock_witness :
    (∀ e ∈ (Engine.mk [⟨3, 2, 7⟩, ⟨5, 1, 1⟩] 0).events,
        (Engine.mk [⟨3, 2, 7⟩, ⟨5, 1, 1⟩] 0).getTime ≤ e.time) ∧
      ∀ (eventId transactId : Nat) (r : Int) (eng' : Engine),
        (Engine.mk [⟨3, 2, 7⟩, ⟨5, 1, 1⟩] 0).cancel eventId transactId = .ok r eng' → 0 ≤ r :=
  C19_pending_not_before_clock (Engine.mk [⟨3, 2, 7⟩, ⟨5, 1, 1⟩] 0)
    ⟨[.schedule 1 5 1, .schedule 2 3 7], by decide⟩

theorem queue_call_step (q q1 : Queue) (engine : Engine) (c : QueueCall) (hinv : q.Inv)
    (hclock : q.lastTimeChanged ≤ engine.getTime) (h : q.call engine c = some q1) :
    q1.Inv ∧ q1.lastTimeChanged = engine.getTime ∧
      q1.timeQueueSum =
        (q.timeQueueSum + q.queue.length * (engine.getTime - q.lastTimeChanged).toNat)
          % 2 ^ 64 := by
  cases c with
  | enqueue transactId priority stage =>
    simp only [Queue.call, Option.some.injEq] at h
    subst h
    exact ⟨queue_inv_enqueue q engine transactId priority stage hinv hclock, rfl,
      queue_enqueue_timeQueueSum q engine transactId priority stage hinv hclock⟩
  | head =>
    simp only [Queue.call] at h
    cases ho : q.head engine with
    | ok r s =>
      rw [ho] at h
      simp only [Outcome.next?, Option.some.injEq] at h
      subst h
      refine ⟨queue_inv_head q s engine r hinv hclock ho, ?_,
        queue_head_timeQueueSum q s engine r hclock ho⟩
      cases hq : q.queue with
      | nil => simp [Queue.head, hq] at ho
      | cons qi rest => exact (queue_head_waits q s engine r qi rest hq ho).2.2.2.2.2.1
    | abort s => rw [ho] at h; cases h
    | undefined => rw [ho] at h; cases h

theorem queue_run_timeQueueSum (cs : List (Engine × QueueCall)) (prev : Int) (q q' : Queue)
    (hinv : q.Inv) (hprev : q.lastTimeChanged = prev) (hrun : Queue.run prev q cs = some q') :
    (q'.timeQueueSum : Int) = (q.timeQueueSum + Queue.lengthIntegral prev q cs) % 2 ^ 64 ∧
      0 ≤ Queue.lengthIntegral prev q cs := by
  induction cs generalizing prev q with
  | nil =>
    simp only [Queue.run, Option.some.injEq] at hrun
    subst hrun
    simp only [Queue.lengthIntegral, add_zero, le_refl, and_true]
    have := hinv.2.2.2.2.1
    omega
  | cons p cs ih =>
    obtain ⟨engine, c⟩ := p
    simp only [Queue.run] at hrun
    split_ifs at hrun with hle
    cases hc : q.call engine c with
    | none => rw [hc] at hrun; cases hrun
    | some q1 =>
      rw [hc] at hrun
      simp only at hrun
      have hclock : q.lastTimeChanged ≤ engine.getTime := by rw [hprev]; exact hle
      obtain ⟨hinv1, hlast1, hsum1⟩ := queue_call_step q q1 engine c hinv hclock hc
      obtain ⟨ih1, ih2⟩ := ih engine.getTime q1 hinv1 hlast1 hrun
      have hd : 0 ≤ engine.getTime - prev := by omega
      have hterm : (0 : Int) ≤ q.length * (engine.getTime - prev) :=
        mul_nonneg (Int.ofNat_nonneg _) hd
      simp only [Queue.lengthIntegral, hc]
      refine ⟨?_, add_nonneg hterm ih2⟩
      rw [ih1, hsum1, hprev]
      push_cast
      rw [Int.toNat_of_nonneg hd, Int.emod_add_emod, add_assoc]
      rfl

/-- C15 as stated fails when the 64-bit sum wraps. The five calls of
`wrapCalls` are made on a new queue at the model times 0, 0, 0, 0 and `2 ^ 62`
and return normally; the integral of the queue length over these times is
`4 * 2 ^ 62 = 2 ^ 64`, and `timeQueueSum` after the last call is 0. -/
theorem C15_integral_wraps :
    (Queue.run 0 (Queue.create "Q") Queue.wrapCalls).map Queue.timeQueueSum = some 0 ∧
      Queue.lengthIntegral 0 (Queue.create "Q") Queue.wrapCalls = 2 ^ 64 := by
  refine ⟨?_, ?_⟩ <;> decide

/-- C15 (time-weighted length), with the 64-bit sum made explicit. For every
sequence of `enqueue` and `head` calls that return normally on a new queue at
non-decreasing model times `0 ≤ t_1 ≤ … ≤ t_k`, `timeQueueSum` after the last
call is, modulo `2 ^ 64`, the sum over the calls of the number of items held
before the call times the model time elapsed since the call before it, that
is, the integral of the queue length over `[0, t_k]`; it is that integral
exactly when the integral is below `2 ^ 64`. In particular a queue that
receives one item at time 0 and gives it back at time 5 ends with
`timeQueueSum = 5`. -/
theorem C15_time_weighted_length (name : String) (cs : List (Engine × QueueCall)) (q : Queue)
    (hrun : Queue.run 0 (Queue.create name) cs = some q) :
    (q.timeQueueSum : Int) = Queue.lengthIntegral 0 (Queue.create name) cs % 2 ^ 64 ∧
      (Queue.lengthIntegral 0 (Queue.create name) cs < 2 ^ 64 →
        (q.timeQueueSum : Int) = Queue.lengthIntegral 0 (Queue.create name) cs) ∧
      (Queue.run 0 (Queue.create name)
        [(Engine.mk [] 0, .enqueue 1 0 0), (Engine.mk [] 5, .head)]).map Queue.timeQueueSum
        = some 5 := by
  obtain ⟨h1, h2⟩ := queue_run_timeQueueSum cs 0 (Queue.create name) q
    (queue_inv_create name) rfl hrun
  have h0 : ((Queue.create name).timeQueueSum : Int) = 0 := rfl
  rw [h0, zero_add] at h1
  refine ⟨h1, ?_, rfl⟩
  intro hlt
  rw [h1]
  exact Int.emod_eq_of_lt h2 hlt

/-- Instance of C15: two items arrive at model time 0, the first leaves at
time 3, the second at time 7; the integral is `2 * 3 + 1 * 4 = 10`. -/
theorem C15_time_weighted_length_witness :
    ((Queue.mk 2 10 10 58 7 2 [] "Q").timeQueueSum : Int) =
      Queue.lengthIntegral 0 (Queue.create "Q")
        [(Engine.mk [] 0, .enqueue 1 0 0), (Engine.mk [] 0, .enqueue 2 1 0),
          (Engine.mk [] 3, .head), (Engine.mk [] 7, .head)] :=
  (C15_time_weighted_length "Q"
    [(Engine.mk [] 0, .enqueue 1 0 0), (Engine.mk [] 0, .enqueue 2 1 0),
      (Engine.mk [] 3, .head), (Engine.mk [] 7, .head)]
    (Queue.mk 2 10 10 58 7 2 [] "Q") (by decide)).2.1 (by decide)

/-- C16 (single-server scenario). The set-up returns normally; four turns of
the loop return normally, their `cause()` calls set the model times 0, 5, 10
and 20, and no event is pending afterwards. In the final state the device has
`transactCount = 2` and `timeUsedSum = 20` and is free, the queue has
`count = 1` and `waitTimeSum = 5` and is empty. -/
theorem C16_single_server_scenario :
    ∃ w0 w : World,
      World.setup = some w0 ∧
      World.turns 4 w0 = some ([0, 5, 10, 20], w) ∧
      w.engine.events = [] ∧
      w.device.transactCount = 2 ∧ w.device.timeUsedSum = 20 ∧ w.device.status = 0 ∧
      w.queue.count = 1 ∧ w.queue.waitTimeSum = 5 ∧ w.queue.length = 0 := by
  refine ⟨⟨⟨[⟨0, 1, 1⟩, ⟨5, 1, 2⟩], 0⟩, Device.create "M", Queue.create "Q"⟩,
    ⟨⟨[], 20⟩, Device.mk "M" 0 10 2 20, Queue.mk 1 5 5 25 10 1 [] "Q"⟩, ?_, ?_, ?_, ?_, ?_, ?_,
    ?_, ?_, ?_⟩ <;> decide

/-- C18 fails on the code. Two items arrive on a new queue at model time 0 and
leave at the times 2 and 3, so that `count = 2` and `waitTimeSum = 5`. The
value that `reportQueues` gives `avgWaitTime` is the integer quotient 2, not
the quotient `5 / 2` of the two numbers. -/
theorem C18_mean_wait_truncated :
    ∃ q : Queue,
      Queue.run 0 (Queue.create "Q")
        [(Engine.mk [] 0, .enqueue 1 0 0), (Engine.mk [] 0, .enqueue 2 1 0),
          (Engine.mk [] 2, .head), (Engine.mk [] 3, .head)] = some q ∧
      q.count = 2 ∧ q.waitTimeSum = 5 ∧ q.avgWaitTime = 2 ∧
      (q.avgWaitTime : ℚ) ≠ (q.waitTimeSum : ℚ) / (q.count : ℚ) := by
  refine ⟨Queue.mk 2 5 5 13 3 2 [] "Q", by decide, by decide, by decide, by decide, ?_⟩
  norm_num [Queue.avgWaitTime]

/-- Order of service among the items a queue holds: `n` consecutive `head`
calls return the first `n` items of the container, in the order of the
container, that is, by arrival time and then by priority. -/
theorem queue_heads_eq_take (engine : Engine) (n : Nat) (q : Queue) :
    Queue.heads engine n q = (q.queue.take n).map (fun i => (i.transactId, i.stage)) := by
  induction n generalizing q with
  | zero => simp [Queue.heads]
  | succ n ih =>
    cases hq : q.queue with
    | nil => simp [Queue.heads, Queue.head, hq]
    | cons qi rest =>
      simp only [Queue.heads, Queue.head, hq, List.take_succ_cons, List.map_cons]
      rw [ih]

/-! ## A device and its engine -/

theorem deviceInv_create (eng : Engine) (h : eng.ReachableExact) (name : String) :
    DeviceInv (eng, Device.create name) := by
  obtain ⟨hinv, ht⟩ := engine_inv_of_reachable eng h
  exact ⟨hinv, ht, ht, le_refl _, ht, fun _ => le_refl _⟩

theorem deviceInv_step (s s' : Engine × Device) (c : DeviceCall) (hinv : DeviceInv s)
    (hfit : (match c with
      | .engine c' => s.1.fits c'
      | _ => true) = true)
    (h : deviceStep s c = some s') : DeviceInv s' := by
  obtain ⟨eng, d⟩ := s
  obtain ⟨hE, ht, hlast, hnn, hle, hbusy⟩ := hinv
  simp only at hE ht hlast hnn hle hbusy
  cases c with
  | engine c =>
    simp only [deviceStep] at h
    simp only at hfit
    cases hc : eng.call c with
    | none => rw [hc] at h; cases h
    | some eng' =>
      rw [hc] at h
      simp only [Option.map_some', Option.some.injEq] at h
      subst h
      obtain ⟨hE', hmono⟩ := engine_inv_call eng eng' c hE ht hfit hc
      exact ⟨hE', le_trans ht hmono, le_trans hlast hmono, hnn, le_trans hle hmono, hbusy⟩
  | reserve transactId =>
    simp only [deviceStep, Device.reserve] at h
    split_ifs at h with hfree
    · simp only [Outcome.next?, Option.map_some', Option.some.injEq] at h
      subst h
      exact ⟨hE, ht, le_refl _, hnn, hle, fun _ => hle⟩
    · simp [Outcome.next?] at h
  | release =>
    simp only [deviceStep, Device.release] at h
    split_ifs at h with hb
    · simp only [Outcome.next?, Option.map_some', Option.some.injEq] at h
      subst h
      have h1 := hbusy hb
      refine ⟨hE, ht, hlast, ?_, ?_, fun hne => absurd rfl hne⟩
      · simp only [Engine.getTime]; omega
      · simp only [Engine.getTime]; omega
    · simp [Outcome.next?] at h

theorem deviceInv_run (cs : List DeviceCall) (s s' : Engine × Device) (hinv : DeviceInv s)
    (h : deviceRunExact s cs = some s') : DeviceInv s' := by
  induction cs generalizing s with
  | nil =>
    simp only [deviceRunExact, Option.some.injEq] at h
    subst h
    exact hinv
  | cons c cs ih =>
    simp only [deviceRunExact] at h
    split_ifs at h with hfit
    cases hc : deviceStep s c with
    | none => rw [hc] at h; cases h
    | some s1 =>
      rw [hc] at h
      exact ih s1 (deviceInv_step s s1 c hinv hfit hc) h

/-- C21 as stated fails when the sum in `schedule` wraps. A device is created
on a new engine. `schedule(1, 10, 1)`, `reserve(1)`, `cause()` to time 10 and
`release()` leave `timeUsedSum = 10`. Then `schedule(2, 2 ^ 63 - 1, 2)` wraps,
`cause()` takes the model time to `-9223372036854775799`, and
`schedule(3, 2 ^ 63 - 6, 3)` with `cause()` takes it to 3. All calls return
normally. In the state reached `timeUsedSum = 10` is above the model time 3
and the share of busy time that `reportDevices` prints is `1000 / 3`, above
100. -/
theorem C21_busy_time_above_clock :
    deviceRun (Engine.create, Device.create "M")
        [.engine (.schedule 1 10 1), .reserve 1, .engine .cause, .release,
          .engine (.schedule 2 (2 ^ 63 - 1) 2), .engine .cause,
          .engine (.schedule 3 (2 ^ 63 - 6) 3), .engine .cause] =
        some (Engine.mk [] 3, Device.mk "M" 0 0 1 10) ∧
      (Engine.mk [] 3).getTime < (Device.mk "M" 0 0 1 10).timeUsedSum ∧
      (Device.mk "M" 0 0 1 10).utilization (Engine.mk [] 3) = some (1000 / 3) ∧
      (100 : ℚ) < 1000 / 3 := by
  refine ⟨by decide, by decide, ?_, by norm_num⟩
  simp only [Device.utilization]
  norm_num

/-- C21 (busy time within the clock), for runs without overflow of the clock
type. A device is created on an engine in any state reached from a new engine
and is then operated by `reserve` and `release` calls interleaved with
`schedule`, `cause` and `cancel` calls on the engine, all returning normally,
every `schedule` before and after the creation having
`_time + time ≤ 2 ^ 63 - 1`. In every state reached, `timeUsedSum` is not
negative and not above the model time, and the share of busy time that
`reportDevices` prints, when it prints one, lies between 0 and 100. -/
theorem C21_busy_time_within_clock (eng0 : Engine) (hreach : eng0.ReachableExact)
    (name : String) (cs : List DeviceCall) (eng : Engine) (d : Device)
    (hrun : deviceRunExact (eng0, Device.create name) cs = some (eng, d)) :
    0 ≤ d.timeUsedSum ∧ d.timeUsedSum ≤ eng.getTime ∧
      ∀ u : ℚ, d.utilization eng = some u → 0 ≤ u ∧ u ≤ 100 := by
  obtain ⟨-, ht, -, hnn, hle, -⟩ :=
    deviceInv_run cs _ _ (deviceInv_create eng0 hreach name) hrun
  simp only at ht hnn hle
  refine ⟨hnn, hle, ?_⟩
  intro u hu
  unfold Device.utilization at hu
  split_ifs at hu with hne
  simp only [Option.some.injEq] at hu
  subst hu
  have htpos : (0 : ℚ) < (eng._time : ℚ) := by
    have : 0 < eng._time := lt_of_le_of_ne ht (Ne.symm hne)
    exact_mod_cast this
  have hnnq : (0 : ℚ) ≤ (d.timeUsedSum : ℚ) := by exact_mod_cast hnn
  have hleq : (d.timeUsedSum : ℚ) ≤ (eng._time : ℚ) := by exact_mod_cast hle
  have hratio : (d.timeUsedSum : ℚ) * 1 / (eng._time : ℚ) ≤ 1 := by
    rw [mul_one]
    exact (div_le_one htpos).mpr hleq
  have hratio0 : 0 ≤ (d.timeUsedSum : ℚ) * 1 / (eng._time : ℚ) := by
    rw [mul_one]
    exact div_nonneg hnnq (le_of_lt htpos)
  constructor
  · exact mul_nonneg hratio0 (by norm_num)
  · calc (d.timeUsedSum : ℚ) * 1 / (eng._time : ℚ) * 100 ≤ 1 * 100 :=
        mul_le_mul_of_nonneg_right hratio (by norm_num)
      _ = 100 := by norm_num

/-- Instance of C21: on a new engine with a device, `schedule(1, 5, 1)`,
`reserve(1)` at time 0, `cause()` to time 5, `release()`: busy time 5 at model
time 5. -/
theorem C21_busy_time_within_clock_witness :
    0 ≤ (Device.mk "M" 0 0 1 5).timeUsedSum ∧
      (Device.mk "M" 0 0 1 5).timeUsedSum ≤ (Engine.mk [] 5).getTime ∧
      ∀ u : ℚ, (Device.mk "M" 0 0 1 5).utilization (Engine.mk [] 5) = some u → 0 ≤ u ∧ u ≤ 100 :=
  C21_busy_time_within_clock Engine.create ⟨[], rfl⟩ "M"
    [.engine (.schedule 1 5 1), .reserve 1, .engine .cause, .release]
    (Engine.mk [] 5) (Device.mk "M" 0 0 1 5) (by decide)

/-! ## The wait sums without wrap -/

theorem queue_reachable_of_exact (q : Queue) (h : q.ReachableExact) : q.Reachable := by
  induction h with
  | create name => exact .create name
  | enqueue engine transactId priority stage q _ hclock ih =>
    exact .enqueue engine transactId priority stage q ih hclock
  | head engine q q' r qi rest _ hclock _ _ _ hhead ih =>
    exact .head engine q q' r ih hclock hhead

theorem queue_head_waits_exact (q q' : Queue) (engine : Engine) (r : Nat × Nat)
    (qi : QueueItem) (rest : List QueueItem) (hq : q.queue = qi :: rest)
    (hle : qi.time ≤ engine.getTime)
    (hsum : (q.waitTimeSum : Int) + (engine.getTime - qi.time) < 2 ^ 64)
    (hsq : (q.waitTimeSumSquared : Int) + (engine.getTime - qi.time) ^ 2 < 2 ^ 64)
    (h : q.head engine = .ok r q') :
    ∃ d : Nat, q'.waitTimeSum = q.waitTimeSum + d ∧
      q'.waitTimeSumSquared = q.waitTimeSumSquared + d * d ∧ q'.count = q.count + 1 := by
  have hdw : 0 ≤ engine.getTime - qi.time := by omega
  obtain ⟨d, hdn⟩ := Int.eq_ofNat_of_zero_le hdw
  obtain ⟨hw, hw2, hc, -, -, -, -⟩ := queue_head_waits q q' engine r qi rest hq h
  refine ⟨d, ?_, ?_, hc⟩
  · rw [hw]
    simp only [u64]
    rw [hdn] at hsum ⊢
    omega
  · rw [hw2]
    simp only [u64]
    rw [hdn] at hsq ⊢
    rw [pow_two] at hsq
    have hdd : ((d * d : Nat) : Int) = (d : Int) * d := by push_cast; rfl
    rw [← hdd] at hsq ⊢
    generalize d * d = dd at hsq ⊢
    omega

theorem sum_sq_le_step (a b n d : Nat) (h : a ^ 2 ≤ n * b) :
    (a + d) ^ 2 ≤ (n + 1) * (b + d * d) := by
  rcases Nat.eq_zero_or_pos n with hn | hn
  · subst hn
    have ha : a = 0 := by
      have : a ^ 2 = 0 := by omega
      exact pow_eq_zero_iff (by norm_num) |>.mp this
    subst ha
    nlinarith
  · have hz : (a : Int) ^ 2 ≤ n * b := by exact_mod_cast h
    have hnz : (0 : Int) < n := by exact_mod_cast hn
    have key : (2 : Int) * a * d ≤ b + n * (d * d) := by
      by_contra hcon
      push_neg at hcon
      nlinarith [sq_nonneg ((a : Int) - n * d), mul_pos hnz hnz]
    have goal : ((a : Int) + d) ^ 2 ≤ (n + 1) * (b + d * d) := by nlinarith
    exact_mod_cast goal

theorem queue_wait_sums_of_exact (q : Queue) (h : q.ReachableExact) :
    q.waitTimeSum ^ 2 ≤ q.count * q.waitTimeSumSquared := by
  induction h with
  | create name => simp [Queue.create]
  | enqueue engine transactId priority stage q _ hclock ih => exact ih
  | head engine q q' r qi rest hex hclock hq hsum hsq hhead ih =>
    have hinv := queue_inv_of_reachable q (queue_reachable_of_exact q hex)
    have hle : qi.time ≤ engine.getTime :=
      le_trans (hinv.2.1 qi (by rw [hq]; exact List.mem_cons_self _ _)) hclock
    obtain ⟨d, h1, h2, h3⟩ :=
      queue_head_waits_exact q q' engine r qi rest hq hle hsum hsq hhead
    rw [h1, h2, h3]
    exact sum_sq_le_step _ _ _ d ih

/-- C22 (argument of the square root). In every queue state reached from a
new queue by `enqueue` and `head` calls under a non-decreasing model time,
without a wrap of `waitTimeSum` or `waitTimeSumSquared`, and with `count > 0`:
the mean wait of `reportQueues` is the integer quotient `waitTimeSum / count`,
its square is at most the integer quotient `waitTimeSumSquared / count`, and
the argument that `reportQueues` passes to `sqrt` is not negative. -/
theorem C22_sqrt_argument_nonneg (q : Queue) (hreach : q.ReachableExact)
    (hcount : 0 < q.count) :
    q.avgWaitTime = q.waitTimeSum / q.count ∧
      (q.waitTimeSum / q.count) ^ 2 ≤ q.waitTimeSumSquared / q.count ∧
      0 ≤ q.stdDevArg := by
  have hcs := queue_wait_sums_of_exact q hreach
  have havg : q.avgWaitTime = q.waitTimeSum / q.count := by
    simp [Queue.avgWaitTime, Nat.pos_iff_ne_zero.mp hcount]
  have hfloor : (q.waitTimeSum / q.count) ^ 2 ≤ q.waitTimeSumSquared / q.count := by
    rw [Nat.le_div_iff_mul_le hcount]
    have h1 : q.waitTimeSum / q.count * q.count ≤ q.waitTimeSum := Nat.div_mul_le_self _ _
    have h2 : (q.waitTimeSum / q.count * q.count) ^ 2 ≤ q.waitTimeSum ^ 2 :=
      Nat.pow_le_pow_left h1 2
    have h3 : ((q.waitTimeSum / q.count) ^ 2 * q.count) * q.count ≤
        q.waitTimeSumSquared * q.count := by
      calc ((q.waitTimeSum / q.count) ^ 2 * q.count) * q.count
          = (q.waitTimeSum / q.count * q.count) ^ 2 := by ring
        _ ≤ q.waitTimeSum ^ 2 := h2
        _ ≤ q.count * q.waitTimeSumSquared := hcs
        _ = q.waitTimeSumSquared * q.count := Nat.mul_comm _ _
    exact Nat.le_of_mul_le_mul_right h3 hcount
  refine ⟨havg, hfloor, ?_⟩
  unfold Queue.stdDevArg
  rw [havg]
  have : (((q.waitTimeSum / q.count) ^ 2 : Nat) : Int) ≤
      ((q.waitTimeSumSquared / q.count : Nat) : Int) := by exact_mod_cast hfloor
  rw [pow_two] at this
  push_cast at this ⊢
  omega

/-- Instance of C22: two items arrive at model time 0 and leave at the times 2
and 3; `count = 2`, `waitTimeSum = 5`, `waitTimeSumSquared = 13`. -/
theorem C22_sqrt_argument_nonneg_witness :
    (Queue.mk 2 5 5 13 3 2 [] "Q").avgWaitTime =
        (Queue.mk 2 5 5 13 3 2 [] "Q").waitTimeSum / (Queue.mk 2 5 5 13 3 2 [] "Q").count ∧
      ((Queue.mk 2 5 5 13 3 2 [] "Q").waitTimeSum / (Queue.mk 2 5 5 13 3 2 [] "Q").count) ^ 2 ≤
        (Queue.mk 2 5 5 13 3 2 [] "Q").waitTimeSumSquared / (Queue.mk 2 5 5 13 3 2 [] "Q").count ∧
      0 ≤ (Queue.mk 2 5 5 13 3 2 [] "Q").stdDevArg :=
  C22_sqrt_argument_nonneg (Queue.mk 2 5 5 13 3 2 [] "Q")
    (.head (Engine.mk [] 3) (Queue.mk 2 4 2 4 2 1 [⟨1, 2, 0, 0⟩] "Q") _ (2, 0) ⟨1, 2, 0, 0⟩ []
      (.head (Engine.mk [] 2)
        (((Queue.create "Q").enqueue Engine.create 1 0 0).enqueue Engine.create 2 1 0) _ (1, 0)
        ⟨0, 1, 0, 0⟩ [⟨1, 2, 0, 0⟩]
        (.enqueue Engine.create 2 1 0 _ (.enqueue Engine.create 1 0 0 _ (.create "Q")
          (by decide)) (by decide))
        (by decide) (by decide) (by decide) (by decide) (by decide))
      (by decide) (by decide) (by decide) (by decide) (by decide))
    (by decide)

end smpl
